import Mathlib

/-! Scheduler simulation framework (`scheduler.h`, `scheduler_wrapper.c`).

A shallow embedding of the driver of the scheduling exercise: the process
list (a circular doubly-linked list with a dummy head, kept in a heap of
cells addressed by index), `enqueue`, the execution pass
`run_and_print_queue`, the fallback policy `empty` with its five weak aliases,
the tick loop of `main`, and the cleanup of the list after a run.

Machine integers are natural numbers; `unsigned` arithmetic is reduced modulo
`UINT_MOD` and the `size_t` tick counter modulo `SIZE_MOD` (LP64).  The
`size_t` counters `nrunning` and `nready` count distinct live list cells and
are kept as plain natural numbers.
-/

namespace Scheduler

/-! ## Data model -/

/-- Number of values of the C type `unsigned` (32 bit). -/
def UINT_MOD : Nat := 4294967296

/-- Number of values of the C type `size_t` (64 bit). -/
def SIZE_MOD : Nat := 18446744073709551616

/-- The enumeration `enum process_state` of `scheduler.h`. -/
inductive process_state where
  | PS_DEAD
  | PS_RUNNING
  | PS_READY
deriving DecidableEq, Repr, Inhabited

open process_state

/-- The record `struct process` of `scheduler.h` (the `WRAPPER` view, all
fields mutable).  The pointers `next` and `prev` are addresses of cells:
indices into the heap. -/
structure process where
  pid : Nat
  cycles_done : Nat
  cycles_waited : Nat
  cycles_todo : Nat
  next : Nat
  prev : Nat
  state : process_state
deriving DecidableEq, Repr, Inhabited

/-- One entry of the table `processes[]`: arrival time and run time. -/
structure Job where
  atime : Nat
  rtime : Nat
deriving DecidableEq, Repr, Inhabited

/-- The built-in workload table `CONFIG_PROCS`. -/
def CONFIG_PROCS : List Job :=
  [⟨0, 3⟩, ⟨2, 7⟩, ⟨4, 1⟩, ⟨6, 5⟩]

/-- Ways in which the program stops without a result. -/
inductive Err where
  /-- an `assert` failed (`abort`) -/
  | assert_failed
  /-- `malloc` returned `NULL`: `exit(1)` -/
  | exit1
  /-- access outside the live cells or outside `processes[]` (undefined) -/
  | fault
  /-- the loop did not finish within the fuel given -/
  | timeout
deriving DecidableEq, Repr, Inhabited

/-- The memory holding the list cells.  Cell `0` is the static `_head`. -/
abbrev Heap := List process

/-- Address of the static dummy head `_head` (the constant `HEAD` of `main`). -/
def HEAD : Nat := 0

/-- Read of the cell at address `p`. -/
def load (h : Heap) (p : Nat) : Except Err process :=
  match h[p]? with
  | some c => .ok c
  | none => .error .fault

/-- Write of the cell at address `p`. -/
def store (h : Heap) (p : Nat) (c : process) : Except Err Heap :=
  if p < h.length then .ok (h.set p c) else .error .fault

/-- Read of `processes[pid]`. -/
def lookup (procs : List Job) (pid : Nat) : Except Err Job :=
  match procs[pid]? with
  | some j => .ok j
  | none => .error .fault

/-- The C macro `assert`. -/
def cassert (b : Bool) : Except Err Unit :=
  if b then .ok () else .error .assert_failed

/-- The static initialiser of `_head` in `main`: linked to itself, `PS_DEAD`,
all other fields zero. -/
def _head : process :=
  { pid := 0, cycles_done := 0, cycles_waited := 0, cycles_todo := 0,
    next := HEAD, prev := HEAD, state := PS_DEAD }

/-! ## `enqueue` -/

/-- The function `enqueue(HEAD, pid)`.  `malloc` succeeds while fewer than
`limit` cells exist and then returns the first unused address; otherwise the
program leaves with `exit(1)`. -/
def enqueue (procs : List Job) (limit : Nat) (h : Heap) (pid : Nat) : Except Err Heap :=
  if h.length < limit then do
    let new : Nat := h.length
    let job ← lookup procs pid
    let head ← load h HEAD
    -- new->pid .. new->state, new->prev = HEAD->prev, new->next = HEAD
    let h1 : Heap := h ++ [{ pid := pid, cycles_done := 0, cycles_waited := 0,
                             cycles_todo := job.rtime, state := PS_READY,
                             prev := head.prev, next := HEAD }]
    -- HEAD->prev->next = new
    let head1 ← load h1 HEAD
    let tail ← load h1 head1.prev
    let h2 ← store h1 head1.prev { tail with next := new }
    -- HEAD->prev = new
    let head2 ← load h2 HEAD
    store h2 HEAD { head2 with prev := new }
  else
    .error .exit1

/-! ## `run_and_print_queue` -/

/-- One group printed by the `printf` of the loop body: pid, done,
done + todo, waited, state. -/
structure Row where
  pid : Nat
  done : Nat
  total : Nat
  waited : Nat
  state : process_state
deriving DecidableEq, Repr, Inhabited

/-- The `switch` of the loop body of `run_and_print_queue`, on one cell. -/
def simulate_tick (procs : List Job) (c : process) : Except Err process :=
  match c.state with
  | PS_RUNNING => do
    let job ← lookup procs c.pid
    cassert (decide ((c.cycles_done + c.cycles_todo) % UINT_MOD ≤ job.rtime))
    let c1 : process := { c with cycles_done := (c.cycles_done + 1) % UINT_MOD }
    cassert (decide (c1.cycles_todo > 0))
    pure { c1 with cycles_todo := c1.cycles_todo - 1 }
  | PS_READY => do
    cassert (decide (c.cycles_todo > 0))
    pure { c with cycles_waited := (c.cycles_waited + 1) % UINT_MOD }
  | PS_DEAD => do
    cassert (decide (c.cycles_todo = 0))
    let job ← lookup procs c.pid
    cassert (decide (c.cycles_done = job.rtime))
    pure c

/-- What the `printf` of the loop body shows for a cell. -/
def row_of (c : process) : Row :=
  { pid := c.pid, done := c.cycles_done,
    total := (c.cycles_done + c.cycles_todo) % UINT_MOD,
    waited := c.cycles_waited, state := c.state }

/-- Result of the `for` loop: heap, `nrunning`, `nready`, printed rows. -/
structure LoopState where
  heap : Heap
  nrunning : Nat
  nready : Nat
  out : List Row
deriving DecidableEq, Repr, Inhabited

/-- The `for` loop of `run_and_print_queue`, started at `current`. -/
def run_loop (procs : List Job) : Nat → Nat → LoopState → Except Err LoopState
  | 0, _, _ => .error .timeout
  | fuel + 1, current, s =>
    if current = HEAD then .ok s
    else do
      let c ← load s.heap current
      let c1 ← simulate_tick procs c
      let h1 ← store s.heap current c1
      run_loop procs fuel c1.next
        { heap := h1,
          nrunning := s.nrunning + (if c.state = PS_RUNNING then 1 else 0),
          nready := s.nready + (if c.state = PS_READY then 1 else 0),
          out := s.out ++ [row_of c1] }

/-- What a call of `run_and_print_queue` leaves behind. -/
structure PassResult where
  heap : Heap
  printed : List Row
  /-- the warning "No RUNNING process selected, despite ready processes" -/
  warning : Bool
  /-- the value returned -/
  ret : Bool
deriving DecidableEq, Repr, Inhabited

/-- The function `run_and_print_queue(HEAD)`.  The loop gets one unit of fuel
per heap cell, which a list of distinct cells cannot exceed. -/
def run_and_print_queue (procs : List Job) (h : Heap) : Except Err PassResult := do
  let head ← load h HEAD
  cassert (decide (head.state = PS_DEAD))
  let s ← run_loop procs h.length head.next
            { heap := h, nrunning := 0, nready := 0, out := [] }
  cassert (decide (s.nrunning ≤ 1))
  pure { heap := s.heap, printed := s.out,
         warning := decide (s.nrunning = 0) && decide (s.nready > 0),
         ret := decide (s.nrunning = 0) }

/-! ## Policies -/

/-- Lines written to `stderr`. -/
inductive Msg where
  /-- "Warning: Scheduler unimplemented!" -/
  | unimplemented
  /-- "Warning: No RUNNING process selected, despite ready processes ..." -/
  | no_running
deriving DecidableEq, Repr, Inhabited

/-- A scheduling function `void f(struct process *head)`: it may change the
heap and write to `stderr`. -/
abbrev Policy := Heap → Except Err (Heap × List Msg)

/-- The fallback `empty`: prints the warning and touches nothing. -/
def empty : Policy := fun h => .ok (h, [Msg.unimplemented])

/-- Weak alias of `empty`. -/
def rr : Policy := empty
/-- Weak alias of `empty`. -/
def fcfs : Policy := empty
/-- Weak alias of `empty`. -/
def spn : Policy := empty
/-- Weak alias of `empty`. -/
def srt : Policy := empty
/-- Weak alias of `empty`. -/
def hrrn : Policy := empty

/-- The table `algos[]`. -/
def algos : List (String × Policy) :=
  [("Round Robin", rr), ("First Come First Serve", fcfs),
   ("Shortest Process Next", spn), ("Shortest Remaining Time Next", srt),
   ("Highest Response Ration Next", hrrn)]

/-! ## The tick loop of `main` -/

/-- The inner loop `for (pi = 0; pi < NUM_PROCESSES; pi++)` of `main`, over
the indices still to visit.  The `size_t` index is converted to `unsigned`
when passed to `enqueue`. -/
def insert_arrived_from (procs : List Job) (limit : Nat) (tick : Nat) :
    List Nat → Heap → Except Err Heap
  | [], h => .ok h
  | pi :: rest, h => do
    let job ← lookup procs pi
    if job.atime = tick then
      let h1 ← enqueue procs limit h (pi % UINT_MOD)
      insert_arrived_from procs limit tick rest h1
    else
      insert_arrived_from procs limit tick rest h

/-- Admission of the jobs whose arrival time is `tick`. -/
def insert_arrived (procs : List Job) (limit : Nat) (tick : Nat) (h : Heap) : Except Err Heap :=
  insert_arrived_from procs limit tick (List.range procs.length) h

/-- What one tick shows: its number, the lines on `stderr`, the rows. -/
structure TickReport where
  tick : Nat
  stderr : List Msg
  rows : List Row
deriving DecidableEq, Repr, Inhabited

/-- State at the end of the tick loop. -/
structure RunResult where
  heap : Heap
  /-- the tick at which the loop was left -/
  last_tick : Nat
  reports : List TickReport
deriving DecidableEq, Repr, Inhabited

/-- The loop `for (tick = 0;; tick++)` of `main` for the policy `func`,
from tick `tick` on; `fuel` bounds the number of ticks simulated. -/
def tick_loop (func : Policy) (procs : List Job) (limit : Nat) :
    Nat → Nat → Heap → List TickReport → Except Err RunResult
  | 0, _, _, _ => .error .timeout
  | fuel + 1, tick, h, reports => do
    let h1 ← insert_arrived procs limit tick h
    let (h2, msgs) ← func h1
    let r ← run_and_print_queue procs h2
    let report : TickReport :=
      { tick := tick,
        stderr := msgs ++ (if r.warning then [Msg.no_running] else []),
        rows := r.printed }
    if r.ret then
      pure { heap := r.heap, last_tick := tick, reports := reports ++ [report] }
    else
      tick_loop func procs limit fuel ((tick + 1) % SIZE_MOD) r.heap (reports ++ [report])

/-- One run of the policy `func` from tick 0 on the queue in `h`. -/
def policy_run (func : Policy) (procs : List Job) (limit : Nat) (fuel : Nat) (h : Heap) :
    Except Err RunResult :=
  tick_loop func procs limit fuel 0 h []

/-! ## Well-formed queues -/

/-- The `next` field of the cell at `a`, when `a` is a live cell. -/
def next_of (h : Heap) (a : Nat) : Option Nat := (h[a]?).map process.next

/-- The `prev` field of the cell at `a`, when `a` is a live cell. -/
def prev_of (h : Heap) (a : Nat) : Option Nat := (h[a]?).map process.prev

/-- The cells `a` and `b` are neighbours: `a->next == b` and `b->prev == a`. -/
def linked (h : Heap) (a b : Nat) : Prop :=
  next_of h a = some b ∧ prev_of h b = some a

instance (h : Heap) (a b : Nat) : Decidable (linked h a b) :=
  inferInstanceAs (Decidable (next_of h a = some b ∧ prev_of h b = some a))

/-- Starting at the cell `x`, the cells `bs` follow one another as neighbours
and the last of them (or `x` itself) has the dummy head as its neighbour. -/
def Ring (h : Heap) : Nat → List Nat → Prop
  | x, [] => linked h x HEAD
  | x, b :: bs => linked h x b ∧ Ring h b bs

/-- Deciding `Ring` by walking along the list. -/
def Ring.decide (h : Heap) : (x : Nat) → (bs : List Nat) → Decidable (Ring h x bs)
  | x, [] => inferInstanceAs (Decidable (linked h x HEAD))
  | x, b :: bs =>
    have : Decidable (Ring h b bs) := Ring.decide h b bs
    inferInstanceAs (Decidable (linked h x b ∧ Ring h b bs))

instance (h : Heap) (x : Nat) (bs : List Nat) : Decidable (Ring h x bs) := Ring.decide h x bs

/-- The heap `h` holds the process list whose cells after the dummy head are,
in `next` order, the distinct addresses `as`: the ring `HEAD, as, HEAD` is
doubly linked. -/
def IsQueue (h : Heap) (as : List Nat) : Prop :=
  HEAD ∉ as ∧ as.Nodup ∧ Ring h HEAD as

instance (h : Heap) (as : List Nat) : Decidable (IsQueue h as) :=
  inferInstanceAs (Decidable (HEAD ∉ as ∧ as.Nodup ∧ Ring h HEAD as))

/-- The last cell of the ring before it closes: the tail of the queue, or the
head itself when the queue is empty. -/
def last_of (as : List Nat) : Nat := as.getLastD HEAD

/-- The cells at the addresses `as`, in that order. -/
def cells (h : Heap) (as : List Nat) : List process :=
  as.filterMap (fun a => h[a]?)

/-- The job data of a list cell: the fields other than the two links. -/
structure Data where
  pid : Nat
  cycles_done : Nat
  cycles_waited : Nat
  cycles_todo : Nat
  state : process_state
deriving DecidableEq, Repr, Inhabited

/-- The job data held in a cell. -/
def process.data (c : process) : Data :=
  { pid := c.pid, cycles_done := c.cycles_done, cycles_waited := c.cycles_waited,
    cycles_todo := c.cycles_todo, state := c.state }

/-- The records of the queue in traversal order. -/
def records (h : Heap) (as : List Nat) : List Data :=
  (cells h as).map process.data

/-- Number of cells among `as` whose state is `st`. -/
def count_state (st : process_state) (h : Heap) (as : List Nat) : Nat :=
  (cells h as).countP (fun c => c.state = st)

/-- The cell that `enqueue` fills in. -/
def new_cell (pid rtime : Nat) (t : Nat) : process :=
  { pid := pid, cycles_done := 0, cycles_waited := 0, cycles_todo := rtime,
    state := PS_READY, prev := t, next := HEAD }

/-- The heap after `enqueue`, from the head cell `hd` and the cell `tc` at
`hd.prev` read before the call. -/
def enqueued (h : Heap) (pid rtime : Nat) (hd tc : process) : Heap :=
  ((h ++ [new_cell pid rtime hd.prev]).set hd.prev { tc with next := h.length }).set HEAD
    { (if hd.prev = HEAD then { tc with next := h.length } else hd) with prev := h.length }

/-- Following `next` from `cur` visits exactly the cells `bs` and then
reaches `HEAD`. -/
def NextPath (h : Heap) : Nat → List Nat → Prop
  | cur, [] => cur = HEAD
  | cur, b :: bs => cur = b ∧ ∃ c, h[b]? = some c ∧ NextPath h c.next bs

/-! ## Runs -/

/-- A cell with its state field blanked. -/
def process.frame (c : process) : process := { c with state := PS_DEAD }

/-- The heaps `h` and `h1` hold the same cells up to their state fields. -/
def StateOnly (h h1 : Heap) : Prop := h1.map process.frame = h.map process.frame

instance (h h1 : Heap) : Decidable (StateOnly h h1) :=
  inferInstanceAs (Decidable (h1.map process.frame = h.map process.frame))

/-- A scheduling function that, whenever it returns, has changed nothing but
state fields (the duty stated in the header notes of `scheduler.h`). -/
def ChangesOnlyState (func : Policy) : Prop :=
  ∀ h h1 msgs, func h = .ok (h1, msgs) → StateOnly h h1

/-- The heaps a run of the policy `func` can pass through: it starts with the
dummy head linked to itself (cells of earlier runs may lie behind it) and goes
on by calls of `enqueue`, of `func` and of `run_and_print_queue` that
return. -/
inductive Reachable (procs : List Job) (limit : Nat) (func : Policy) : Heap → Prop
  | start (junk : List process) : Reachable procs limit func (_head :: junk)
  | enq {h h1 : Heap} (pid : Nat) : Reachable procs limit func h →
      enqueue procs limit h pid = .ok h1 → Reachable procs limit func h1
  | select {h h1 : Heap} {msgs : List Msg} : Reachable procs limit func h →
      func h = .ok (h1, msgs) → Reachable procs limit func h1
  | tick {h : Heap} {r : PassResult} : Reachable procs limit func h →
      run_and_print_queue procs h = .ok r → Reachable procs limit func r.heap

/-- The counters of a record add up to the run time of its job. -/
def Balanced (procs : List Job) (d : Data) : Prop :=
  ∃ job, procs[d.pid]? = some job ∧ d.cycles_done + d.cycles_todo = job.rtime

/-- The record that the job with table index `i` gets when it is enqueued. -/
def fresh (procs : List Job) (i : Nat) : Option Data :=
  (procs[i]?).map (fun j =>
    { pid := i, cycles_done := 0, cycles_waited := 0, cycles_todo := j.rtime,
      state := PS_READY })

/-- The job with table index `i` exists and has arrival time `tick`. -/
def arrives (procs : List Job) (tick : Nat) (i : Nat) : Bool :=
  (procs[i]?).any (fun j => decide (j.atime = tick))

/-- The table indices of the jobs whose arrival time is `tick`, ascending. -/
def arrivals (procs : List Job) (tick : Nat) : List Nat :=
  (List.range procs.length).filter (arrives procs tick)

/-- A record after one tick spent waiting. -/
def Data.wait (d : Data) : Data :=
  { d with cycles_waited := (d.cycles_waited + 1) % UINT_MOD }

/-- The pid that the report of tick `t` shows as running, if any. -/
def running_at (res : RunResult) (t : Nat) : Option Nat :=
  (res.reports.find? (fun rep => decide (rep.tick = t))).bind
    (fun rep => (rep.rows.find? (fun row => decide (row.state = PS_RUNNING))).map Row.pid)

/-- What the `printf` of the loop body shows for a record. -/
def Data.row (d : Data) : Row :=
  { pid := d.pid, done := d.cycles_done,
    total := (d.cycles_done + d.cycles_todo) % UINT_MOD,
    waited := d.cycles_waited, state := d.state }

/-! ## Sample queues -/

/-- Heap with a queue of three records: a running, a ready and a dead one. -/
def demo_heap : Heap :=
  [ { _head with next := 1, prev := 3 },
    { pid := 0, cycles_done := 1, cycles_waited := 0, cycles_todo := 2, next := 2, prev := 0,
      state := PS_RUNNING },
    { pid := 1, cycles_done := 0, cycles_waited := 1, cycles_todo := 7, next := 3, prev := 1,
      state := PS_READY },
    { pid := 2, cycles_done := 1, cycles_waited := 5, cycles_todo := 0, next := 0, prev := 2,
      state := PS_DEAD } ]

/-- The result of the execution pass on `demo_heap`. -/
def demo_pass : PassResult :=
  { heap :=
      [ { _head with next := 1, prev := 3 },
        { pid := 0, cycles_done := 2, cycles_waited := 0, cycles_todo := 1, next := 2, prev := 0,
          state := PS_RUNNING },
        { pid := 1, cycles_done := 0, cycles_waited := 2, cycles_todo := 7, next := 3, prev := 1,
          state := PS_READY },
        { pid := 2, cycles_done := 1, cycles_waited := 5, cycles_todo := 0, next := 0, prev := 2,
          state := PS_DEAD } ],
    printed := [⟨0, 2, 3, 0, PS_RUNNING⟩, ⟨1, 0, 7, 2, PS_READY⟩, ⟨2, 1, 1, 5, PS_DEAD⟩],
    warning := false, ret := false }

/-- Heap with a queue of one running record that needs one more tick. -/
def last_tick_heap : Heap :=
  [ { _head with next := 1, prev := 1 },
    { pid := 0, cycles_done := 2, cycles_waited := 0, cycles_todo := 1, next := 0, prev := 0,
      state := PS_RUNNING } ]

/-- The result of the execution pass on `last_tick_heap`. -/
def last_tick_pass : PassResult :=
  { heap :=
      [ { _head with next := 1, prev := 1 },
        { pid := 0, cycles_done := 3, cycles_waited := 0, cycles_todo := 0, next := 0, prev := 0,
          state := PS_RUNNING } ],
    printed := [⟨0, 3, 3, 0, PS_RUNNING⟩],
    warning := false, ret := false }

/-- Heap with a queue of one dead record (the job with pid 0 has finished). -/
def done_heap : Heap :=
  [ { _head with next := 1, prev := 1 },
    { pid := 0, cycles_done := 3, cycles_waited := 0, cycles_todo := 0, next := 0, prev := 0,
      state := PS_DEAD } ]

/-- Heap with a queue of one ready record: the job with pid 0 just enqueued. -/
def ready_heap : Heap :=
  [ { _head with next := 1, prev := 1 },
    { pid := 0, cycles_done := 0, cycles_waited := 0, cycles_todo := 3, next := 0, prev := 0,
      state := PS_READY } ]

/-- The heap `ready_heap` after one execution pass. -/
def waited_heap : Heap :=
  [ { _head with next := 1, prev := 1 },
    { pid := 0, cycles_done := 0, cycles_waited := 1, cycles_todo := 3, next := 0, prev := 0,
      state := PS_READY } ]

/-- The result of the execution pass on `done_heap`. -/
def done_pass : PassResult :=
  { heap := done_heap, printed := [⟨0, 3, 3, 0, PS_DEAD⟩], warning := false, ret := true }

/-- The result of the execution pass on `ready_heap`. -/
def waited_pass : PassResult :=
  { heap := waited_heap, printed := [⟨0, 0, 3, 1, PS_READY⟩], warning := true, ret := true }

/-- A workload table that is not sorted by arrival time: the first two jobs
of the built-in table, swapped. -/
def swapped_procs : List Job := [⟨2, 7⟩, ⟨0, 3⟩]

/-- The heap at the end of a run of the fallback policy on `swapped_procs`. -/
def swapped_heap : Heap :=
  [ { _head with next := 1, prev := 1 },
    { pid := 1, cycles_done := 0, cycles_waited := 1, cycles_todo := 3, next := 0, prev := 0,
      state := PS_READY } ]

/-- The report of tick 0 of a run of the fallback policy on the built-in
workload. -/
def tick0_report : TickReport :=
  ⟨0, [Msg.unimplemented, Msg.no_running], [⟨0, 0, 3, 1, PS_READY⟩]⟩

/-- The end of a run of the fallback policy on the built-in workload. -/
def builtin_result : RunResult :=
  { heap := waited_heap, last_tick := 0, reports := [tick0_report] }

/-- The schedule stated for First-Come-First-Served on the built-in
workload: the pid running at each of the ticks 0 to 15. -/
def stated_fcfs_schedule : List (Option Nat) :=
  [some 0, some 0, some 0, some 1, some 1, some 1, some 1, some 1, some 1, some 1,
   some 2, some 3, some 3, some 3, some 3, some 3]

/-- The record that the job with table index `i` has at the end of a run of
the fallback policy: ready, nothing done, one tick waited. -/
def left_waiting (procs : List Job) (i : Nat) : Option Data :=
  (procs[i]?).map (fun j =>
    { pid := i, cycles_done := 0, cycles_waited := 1, cycles_todo := j.rtime,
      state := PS_READY })

/-- Heap with a queue of one running record whose counters add up to less
than the run time 3 of its job. -/
def short_heap : Heap :=
  [ { _head with next := 1, prev := 1 },
    { pid := 0, cycles_done := 0, cycles_waited := 0, cycles_todo := 2, next := 0, prev := 0,
      state := PS_RUNNING } ]

/-- The result of the execution pass on `short_heap`. -/
def short_pass : PassResult :=
  { heap :=
      [ { _head with next := 1, prev := 1 },
        { pid := 0, cycles_done := 1, cycles_waited := 0, cycles_todo := 1, next := 0, prev := 0,
          state := PS_RUNNING } ],
    printed := [⟨0, 1, 2, 0, PS_RUNNING⟩],
    warning := false, ret := false }

/-- Heap with a queue of two running records. -/
def two_running_heap : Heap :=
  [ { _head with next := 1, prev := 2 },
    { pid := 0, cycles_done := 1, cycles_waited := 0, cycles_todo := 2, next := 2, prev := 0,
      state := PS_RUNNING },
    { pid := 1, cycles_done := 0, cycles_waited := 0, cycles_todo := 7, next := 0, prev := 1,
      state := PS_RUNNING } ]

/-- Number of cells whose state field differs between the heaps `h` and
`h1`, compared address by address. -/
def changed_states (h h1 : Heap) : Nat :=
  ((h.zip h1).filter (fun p => decide (p.1.state ≠ p.2.state))).length

/-- The shape of the process list as the header notes describe it: following
`next` from the dummy head visits the cells `as` and returns to the head, and
every cell `n` on the way, the head included, has `n->next->prev == n` and
`n->prev->next == n`. -/
def RingShape (h : Heap) (as : List Nat) : Prop :=
  HEAD ∉ as ∧ (∃ hd, h[HEAD]? = some hd ∧ NextPath h hd.next as) ∧
  ∀ n ∈ HEAD :: as, ∃ c, h[n]? = some c ∧
    prev_of h c.next = some n ∧ next_of h c.prev = some n

/-! ## Cleanup at the end of a run -/

/-- The memory together with the cells that `free` has released. -/
structure Mem where
  cells : Heap
  freed : List Nat
deriving DecidableEq, Repr, Inhabited

/-- Read of the cell at `p` through a pointer. Reading a released cell is
undefined; with `lax` set, the memory is taken to be one on which a released
cell still reads as it did before `free` (the C standard gives no such
guarantee). -/
def load_live (lax : Bool) (m : Mem) (p : Nat) : Except Err process :=
  if !lax && decide (p ∈ m.freed) then .error .fault else load m.cells p

/-- The library function `free` on a pointer to a cell: the cell must come
from `malloc` (not the static head) and must not have been released. -/
def free (m : Mem) (p : Nat) : Except Err Mem :=
  if p = HEAD ∨ p ∈ m.freed ∨ m.cells.length ≤ p then .error .fault
  else .ok { m with freed := p :: m.freed }

/-- The loop `for (current = ...; current->prev != HEAD; current =
current->next)` of the cleanup in `main`, at `current`. The two `assert`s of
its body test pointers against `NULL`; no pointer of this model is null. -/
def cleanup_loop (lax : Bool) : Nat → Mem → Nat → Except Err Mem
  | 0, _, _ => .error .timeout
  | fuel + 1, m, current => do
    let c ← load_live lax m current
    if c.prev ≠ HEAD then do
      let m1 ← free m c.prev
      let c1 ← load_live lax m1 current
      cleanup_loop lax fuel m1 c1.next
    else
      .ok m

/-- The cleanup of `main` after a policy run: the `assert` that reads
`HEAD->next->next->prev`, the loop, and `HEAD->next = HEAD->prev = HEAD`. -/
def cleanup (lax : Bool) (m : Mem) : Except Err Mem := do
  let hd ← load_live lax m HEAD
  let n1 ← load_live lax m hd.next
  let _ ← load_live lax m n1.next
  let m1 ← cleanup_loop lax (m.cells.length + 1) m n1.next
  let hd1 ← load_live lax m1 HEAD
  let cells1 ← store m1.cells HEAD { hd1 with next := HEAD, prev := HEAD }
  pure { m1 with cells := cells1 }

/-- The heap `waited_heap` with the head linked to itself again. -/
def cleared_heap : Heap :=
  [ _head,
    { pid := 0, cycles_done := 0, cycles_waited := 1, cycles_todo := 3, next := 0, prev := 0,
      state := PS_READY } ]

/-! ## Basic facts about the memory operations -/

theorem bind_ok_eq {α β : Type} (a : α) (f : α → Except Err β) :
    (Except.ok a >>= f) = f a := rfl

theorem bind_error_eq {α β : Type} (e : Err) (f : α → Except Err β) :
    ((Except.error e : Except Err α) >>= f) = Except.error e := rfl

theorem bind_eq_ok_iff {α β : Type} (x : Except Err α) (f : α → Except Err β) (b : β) :
    (x >>= f) = .ok b ↔ ∃ a, x = .ok a ∧ f a = .ok b := by
  cases x with
  | error e => simp [bind_error_eq]
  | ok a => simp [bind_ok_eq]

theorem load_eq_ok_iff (h : Heap) (p : Nat) (c : process) :
    load h p = .ok c ↔ h[p]? = some c := by
  unfold load
  cases hc : h[p]? <;> simp

theorem load_of_get {h : Heap} {p : Nat} {c : process} (hc : h[p]? = some c) :
    load h p = .ok c := (load_eq_ok_iff h p c).2 hc

theorem store_of_lt {h : Heap} {p : Nat} (c : process) (hp : p < h.length) :
    store h p c = .ok (h.set p c) := by
  simp [store, hp]

theorem store_eq_ok_iff (h : Heap) (p : Nat) (c : process) (h1 : Heap) :
    store h p c = .ok h1 ↔ p < h.length ∧ h1 = h.set p c := by
  unfold store
  by_cases hp : p < h.length <;> simp [hp, eq_comm]

theorem lookup_eq_ok_iff (procs : List Job) (pid : Nat) (j : Job) :
    lookup procs pid = .ok j ↔ procs[pid]? = some j := by
  unfold lookup
  cases hc : procs[pid]? <;> simp

theorem cassert_eq_ok_iff (b : Bool) : cassert b = .ok () ↔ b = true := by
  unfold cassert
  cases b <;> simp

theorem get_lt {h : Heap} {p : Nat} {c : process} (hc : h[p]? = some c) : p < h.length := by
  rcases List.getElem?_eq_some.1 hc with ⟨hlt, _⟩
  exact hlt

theorem next_of_eq_some {h : Heap} {a b : Nat} :
    next_of h a = some b ↔ ∃ c, h[a]? = some c ∧ c.next = b := by
  simp [next_of]

theorem prev_of_eq_some {h : Heap} {a b : Nat} :
    prev_of h a = some b ↔ ∃ c, h[a]? = some c ∧ c.prev = b := by
  simp [prev_of]

theorem last_of_nil : last_of [] = HEAD := rfl

theorem last_of_append (as : List Nat) (a : Nat) : last_of (as ++ [a]) = a := by
  simp [last_of, List.getLastD_concat]

theorem last_of_mem (as : List Nat) : as = [] ∨ last_of as ∈ as := by
  cases as with
  | nil => left; rfl
  | cons a as =>
    right
    simp only [last_of, List.getLastD_cons]
    rw [← List.getLast_eq_getLastD a as (List.cons_ne_nil _ _)]
    exact List.getLast_mem _

theorem ring_closing {h : Heap} : ∀ (l : List Nat) (x : Nat),
    Ring h x l → linked h (l.getLastD x) HEAD
  | [], _, hr => hr
  | y :: ys, _, hr => by
    rw [List.getLastD_cons]
    exact ring_closing ys y hr.2

theorem IsQueue.closing {h : Heap} {as : List Nat} (hq : IsQueue h as) :
    linked h (last_of as) HEAD :=
  ring_closing as HEAD hq.2.2

theorem get_snoc (h : Heap) (c : process) (a : Nat) :
    (h ++ [c])[a]? = if a < h.length then h[a]? else if a = h.length then some c else none := by
  by_cases h1 : a < h.length
  · rw [if_pos h1, List.getElem?_append_left h1]
  · rw [if_neg h1]
    by_cases h2 : a = h.length
    · rw [if_pos h2, h2]
      exact List.getElem?_concat_length h c
    · rw [if_neg h2]
      apply List.getElem?_eq_none
      rw [List.length_append, List.length_singleton]
      omega

theorem snoc_length (h : Heap) (c : process) : (h ++ [c]).length = h.length + 1 := by
  rw [List.length_append, List.length_singleton]

theorem enqueue_eq {procs : List Job} {limit : Nat} {h : Heap} {pid : Nat} {job : Job}
    {hd tc : process} (hlim : h.length < limit) (hjob : procs[pid]? = some job)
    (hhd : h[HEAD]? = some hd) (htc : h[hd.prev]? = some tc) :
    enqueue procs limit h pid = .ok (enqueued h pid job.rtime hd tc) := by
  have h0 : HEAD < h.length := get_lt hhd
  have ht : hd.prev < h.length := get_lt htc
  have e0 : lookup procs pid = .ok job := (lookup_eq_ok_iff _ _ _).2 hjob
  have e1 : load h HEAD = .ok hd := load_of_get hhd
  have e2 : load (h ++ [new_cell pid job.rtime hd.prev]) HEAD = .ok hd :=
    load_of_get (by rw [get_snoc, if_pos h0]; exact hhd)
  have e3 : load (h ++ [new_cell pid job.rtime hd.prev]) hd.prev = .ok tc :=
    load_of_get (by rw [get_snoc, if_pos ht]; exact htc)
  have e4 : store (h ++ [new_cell pid job.rtime hd.prev]) hd.prev { tc with next := h.length }
      = .ok ((h ++ [new_cell pid job.rtime hd.prev]).set hd.prev { tc with next := h.length }) :=
    store_of_lt _ (by rw [snoc_length]; omega)
  have e5 : load ((h ++ [new_cell pid job.rtime hd.prev]).set hd.prev { tc with next := h.length }) HEAD
      = .ok (if hd.prev = HEAD then { tc with next := h.length } else hd) := by
    apply load_of_get
    rw [List.getElem?_set]
    by_cases ht0 : hd.prev = HEAD
    · rw [if_pos ht0, if_pos ht0, if_pos (by rw [snoc_length]; omega)]
    · rw [if_neg ht0, if_neg ht0, get_snoc, if_pos h0]
      exact hhd
  have e6 : ∀ c, store ((h ++ [new_cell pid job.rtime hd.prev]).set hd.prev
        { tc with next := h.length }) HEAD c
      = .ok (((h ++ [new_cell pid job.rtime hd.prev]).set hd.prev
        { tc with next := h.length }).set HEAD c) :=
    fun c => store_of_lt _ (by rw [List.length_set, snoc_length]; omega)
  unfold enqueue
  rw [if_pos hlim]
  simp only [e0, e1, bind_ok_eq]
  unfold new_cell at e2 e3 e4 e5 e6
  simp only [e2, e3, bind_ok_eq, e4, e5, e6]
  rfl

theorem enqueued_length (h : Heap) (pid rtime : Nat) (hd tc : process) :
    (enqueued h pid rtime hd tc).length = h.length + 1 := by
  unfold enqueued
  rw [List.length_set, List.length_set, snoc_length]

theorem enqueued_get {h : Heap} (pid rtime : Nat) {hd tc : process}
    (hhd : h[HEAD]? = some hd) (htc : h[hd.prev]? = some tc) (a : Nat) :
    (enqueued h pid rtime hd tc)[a]? =
      if a = HEAD then
        some { (if hd.prev = HEAD then { tc with next := h.length } else hd)
               with prev := h.length }
      else if a = hd.prev then some { tc with next := h.length }
      else if a = h.length then some (new_cell pid rtime hd.prev)
      else h[a]? := by
  have h0 : HEAD < h.length := get_lt hhd
  have ht : hd.prev < h.length := get_lt htc
  unfold enqueued
  rw [List.getElem?_set, List.getElem?_set, get_snoc, List.length_set, snoc_length]
  by_cases ha0 : a = HEAD
  · subst ha0
    rw [if_pos rfl, if_pos rfl, if_pos (by omega)]
  · rw [if_neg (Ne.symm ha0), if_neg ha0]
    by_cases hat : a = hd.prev
    · subst hat
      rw [if_pos rfl, if_pos rfl, if_pos (by omega)]
    · rw [if_neg (Ne.symm hat), if_neg hat]
      by_cases ha : a = h.length
      · rw [if_pos ha, if_neg (by omega), if_pos ha]
      · rw [if_neg ha]
        by_cases hlt : a < h.length
        · rw [if_pos hlt, if_neg ha]
        · rw [if_neg hlt, if_neg ha]
          exact (List.getElem?_eq_none (Nat.le_of_not_lt hlt)).symm

theorem enqueued_next {h : Heap} (pid rtime : Nat) {hd tc : process}
    (hhd : h[HEAD]? = some hd) (htc : h[hd.prev]? = some tc) (a : Nat) :
    next_of (enqueued h pid rtime hd tc) a =
      if a = h.length then some HEAD
      else if a = hd.prev then some h.length else next_of h a := by
  have h0 : HEAD < h.length := get_lt hhd
  have ht : hd.prev < h.length := get_lt htc
  unfold next_of
  rw [enqueued_get pid rtime hhd htc]
  by_cases ha : a = h.length
  · have h1 : a ≠ HEAD := by omega
    have h2 : a ≠ hd.prev := by omega
    simp only [ha, if_true, if_neg (ha ▸ h1), if_neg (ha ▸ h2)]
    rfl
  · by_cases hat : a = hd.prev
    · by_cases ha0 : a = HEAD
      · have ht0 : hd.prev = HEAD := by rw [← hat]; exact ha0
        simp only [if_neg ha, if_pos hat, if_pos ha0, if_pos ht0]
        rfl
      · simp only [if_neg ha, if_pos hat, if_neg ha0]
        rfl
    · by_cases ha0 : a = HEAD
      · have ht0 : ¬ hd.prev = HEAD := by rw [← ha0]; exact Ne.symm hat
        simp only [if_neg ha, if_neg hat, if_pos ha0, if_neg ht0]
        rw [ha0, hhd]
        rfl
      · simp only [if_neg ha, if_neg hat, if_neg ha0]

theorem enqueued_prev {h : Heap} (pid rtime : Nat) {hd tc : process}
    (hhd : h[HEAD]? = some hd) (htc : h[hd.prev]? = some tc) (a : Nat) :
    prev_of (enqueued h pid rtime hd tc) a =
      if a = HEAD then some h.length
      else if a = h.length then some hd.prev else prev_of h a := by
  have h0 : HEAD < h.length := get_lt hhd
  have ht : hd.prev < h.length := get_lt htc
  unfold prev_of
  rw [enqueued_get pid rtime hhd htc]
  by_cases ha0 : a = HEAD
  · simp only [if_pos ha0]
    rfl
  · by_cases hat : a = hd.prev
    · have ha : a ≠ h.length := by omega
      simp only [if_neg ha0, if_pos hat, if_neg ha]
      rw [hat, htc]
      rfl
    · by_cases ha : a = h.length
      · simp only [if_neg ha0, if_neg hat, if_pos ha]
        rfl
      · simp only [if_neg ha0, if_neg hat, if_neg ha]

theorem enqueued_data {h : Heap} (pid rtime : Nat) {hd tc : process}
    (hhd : h[HEAD]? = some hd) (htc : h[hd.prev]? = some tc) (a : Nat) :
    ((enqueued h pid rtime hd tc)[a]?).map process.data =
      if a = h.length then
        some { pid := pid, cycles_done := 0, cycles_waited := 0,
               cycles_todo := rtime, state := PS_READY }
      else (h[a]?).map process.data := by
  have h0 : HEAD < h.length := get_lt hhd
  have ht : hd.prev < h.length := get_lt htc
  rw [enqueued_get pid rtime hhd htc]
  by_cases ha0 : a = HEAD
  · have ha : a ≠ h.length := by omega
    simp only [if_pos ha0, if_neg ha]
    rw [ha0, hhd]
    by_cases ht0 : hd.prev = HEAD
    · rw [if_pos ht0]
      rw [ht0, hhd] at htc
      rw [← Option.some.inj htc]
      rfl
    · rw [if_neg ht0]
      rfl
  · by_cases hat : a = hd.prev
    · have ha : a ≠ h.length := by omega
      simp only [if_neg ha0, if_pos hat, if_neg ha]
      rw [hat, htc]
      rfl
    · by_cases ha : a = h.length
      · simp only [if_neg ha0, if_neg hat, if_pos ha]
        rfl
      · simp only [if_neg ha0, if_neg hat, if_neg ha]


theorem linked_lt {h : Heap} {a b : Nat} (hl : linked h a b) : a < h.length ∧ b < h.length := by
  obtain ⟨h1, h2⟩ := hl
  obtain ⟨c, hc, _⟩ := next_of_eq_some.1 h1
  obtain ⟨d, hd, _⟩ := prev_of_eq_some.1 h2
  exact ⟨get_lt hc, get_lt hd⟩

theorem ring_mem_lt {h : Heap} : ∀ (l : List Nat) (x : Nat),
    Ring h x l → ∀ a ∈ x :: l, a < h.length
  | [], x, hr, a, ha => by
    rw [List.mem_singleton] at ha
    rw [ha]
    exact (linked_lt hr).1
  | y :: ys, x, hr, a, ha => by
    rcases List.mem_cons.1 ha with h1 | h1
    · rw [h1]
      exact (linked_lt hr.1).1
    · exact ring_mem_lt ys y hr.2 a h1

theorem IsQueue.mem_lt {h : Heap} {as : List Nat} (hq : IsQueue h as) :
    ∀ a ∈ as, a < h.length := fun a ha =>
  ring_mem_lt as HEAD hq.2.2 a (List.mem_cons_of_mem _ ha)

theorem IsQueue.head_lt {h : Heap} {as : List Nat} (hq : IsQueue h as) : HEAD < h.length :=
  ring_mem_lt as HEAD hq.2.2 HEAD (List.mem_cons_self _ _)

/-- Appending a cell `n` to a ring: the links of the old ring are kept except
the one that closed it, and the new cell is linked between the old last cell
and the head. -/
theorem ring_snoc {h h1 : Heap} {n : Nat} : ∀ (l : List Nat) (x : Nat),
    (x :: l).Nodup → Ring h x l →
    (∀ a b, linked h a b → a ≠ l.getLastD x → b ∈ l → linked h1 a b) →
    linked h1 (l.getLastD x) n → linked h1 n HEAD → Ring h1 x (l ++ [n])
  | [], _, _, _, _, h2, h3 => ⟨h2, h3⟩
  | y :: ys, x, hnd, hr, hrs, h2, h3 => by
    have hx : x ∉ y :: ys := (List.nodup_cons.1 hnd).1
    have hlast : ys.getLastD y ∈ y :: ys := by
      rw [← List.getLast_eq_getLastD y ys (List.cons_ne_nil _ _)]
      exact List.getLast_mem _
    refine ⟨hrs x y hr.1 ?_ (List.mem_cons_self _ _), ?_⟩
    · intro he
      apply hx
      rw [he, List.getLastD_cons]
      exact hlast
    · apply ring_snoc ys y (List.nodup_cons.1 hnd).2 hr.2
      · intro a b hab hne hb
        exact hrs a b hab (by rw [List.getLastD_cons]; exact hne) (List.mem_cons_of_mem _ hb)
      · rw [List.getLastD_cons] at h2
        exact h2
      · exact h3

theorem ring_imp {h h1 : Heap} (himp : ∀ a b, linked h a b → linked h1 a b) :
    ∀ (l : List Nat) (x : Nat), Ring h x l → Ring h1 x l
  | [], x, hr => himp x HEAD hr
  | y :: ys, x, hr => ⟨himp x y hr.1, ring_imp himp ys y hr.2⟩

theorem records_eq (h : Heap) (as : List Nat) :
    records h as = as.filterMap (fun a => (h[a]?).map process.data) := by
  unfold records cells
  rw [List.map_filterMap]

theorem records_congr {h h1 : Heap} {as : List Nat}
    (hd : ∀ a ∈ as, (h1[a]?).map process.data = (h[a]?).map process.data) :
    records h1 as = records h as := by
  rw [records_eq, records_eq]
  exact List.filterMap_congr hd

theorem records_append (h : Heap) (as bs : List Nat) :
    records h (as ++ bs) = records h as ++ records h bs := by
  simp [records, cells, List.filterMap_append]

/-- Calling `enqueue` on a well-formed queue: it returns, the new cell is the
first unused one, the queue is well-formed with the new cell last, and the
records are those held before followed by the new one. -/
theorem enqueue_queue {procs : List Job} {limit : Nat} {h : Heap} {as : List Nat}
    {pid : Nat} {job : Job} (hq : IsQueue h as) (hlim : h.length < limit)
    (hjob : procs[pid]? = some job) :
    ∃ h1, enqueue procs limit h pid = .ok h1 ∧ h1.length = h.length + 1 ∧
      IsQueue h1 (as ++ [h.length]) ∧
      (∀ a, a ≠ h.length → (h1[a]?).map process.data = (h[a]?).map process.data) ∧
      (h1[h.length]?).map process.data =
        some { pid := pid, cycles_done := 0, cycles_waited := 0,
               cycles_todo := job.rtime, state := PS_READY } ∧
      prev_of h1 h.length = some (last_of as) ∧ next_of h1 h.length = some HEAD := by
  obtain ⟨hn, hp⟩ := hq.closing
  obtain ⟨tc, htc, _⟩ := next_of_eq_some.1 hn
  obtain ⟨hd, hhd, hprev⟩ := prev_of_eq_some.1 hp
  rw [← hprev] at htc
  have h0 : HEAD < h.length := get_lt hhd
  have ht : hd.prev < h.length := get_lt htc
  have hN := enqueued_next pid job.rtime hhd htc
  have hP := enqueued_prev pid job.rtime hhd htc
  have hD := enqueued_data pid job.rtime hhd htc
  refine ⟨enqueued h pid job.rtime hd tc, enqueue_eq hlim hjob hhd htc,
    enqueued_length _ _ _ _ _, ⟨?_, ?_, ?_⟩, ?_, ?_, ?_, ?_⟩
  · intro hmem
    rcases List.mem_append.1 hmem with h1 | h1
    · exact hq.1 h1
    · rw [List.mem_singleton] at h1
      omega
  · rw [List.nodup_append]
    refine ⟨hq.2.1, List.nodup_singleton _, ?_⟩
    intro a ha hb
    rw [List.mem_singleton] at hb
    have := hq.mem_lt a ha
    omega
  · have hlast : as.getLastD HEAD = hd.prev := by
      rw [hprev]
      rfl
    apply ring_snoc as HEAD (List.nodup_cons.2 ⟨hq.1, hq.2.1⟩) hq.2.2
    · intro a b hab hne hb
      have hlt := linked_lt hab
      have hb0 : b ≠ HEAD := fun e => hq.1 (e ▸ hb)
      have hat : a ≠ hd.prev := by
        rw [← hlast]
        exact hne
      constructor
      · rw [hN a, if_neg (by omega), if_neg hat]
        exact hab.1
      · rw [hP b, if_neg hb0, if_neg (by omega)]
        exact hab.2
    · rw [hlast]
      constructor
      · rw [hN, if_neg (by omega), if_pos rfl]
      · rw [hP, if_neg (by omega), if_pos rfl]
    · constructor
      · rw [hN, if_pos rfl]
      · rw [hP, if_pos rfl]
  · intro a ha
    rw [hD a, if_neg ha]
  · rw [hD, if_pos rfl]
  · rw [hP, if_neg (by omega), if_pos rfl, hprev]
  · rw [hN, if_pos rfl]


/-! ### The execution pass -/

theorem ring_nextPath {h : Heap} : ∀ (bs : List Nat) (x : Nat),
    Ring h x bs → ∃ c, h[x]? = some c ∧ NextPath h c.next bs
  | [], _, hr => by
    obtain ⟨c, hc1, hc2⟩ := next_of_eq_some.1 hr.1
    exact ⟨c, hc1, hc2⟩
  | b :: bs, _, hr => by
    obtain ⟨c, hc1, hc2⟩ := next_of_eq_some.1 hr.1.1
    obtain ⟨d, hd1, hd2⟩ := ring_nextPath bs b hr.2
    exact ⟨c, hc1, hc2, d, hd1, hd2⟩

theorem IsQueue.nextPath {h : Heap} {as : List Nat} (hq : IsQueue h as) :
    ∃ hd, h[HEAD]? = some hd ∧ NextPath h hd.next as :=
  ring_nextPath as HEAD hq.2.2

theorem nextPath_set {h : Heap} {b : Nat} {c1 : process} : ∀ (bs : List Nat) (x : Nat),
    b ∉ bs → NextPath h x bs → NextPath (h.set b c1) x bs
  | [], _, _, hp => hp
  | a :: bs, x, hb, hp => by
    obtain ⟨hx, c, hc, hrest⟩ := hp
    have hne : b ≠ a := fun e => hb (e ▸ List.mem_cons_self _ _)
    refine ⟨hx, c, ?_, nextPath_set bs c.next (fun hm => hb (List.mem_cons_of_mem _ hm)) hrest⟩
    rw [List.getElem?_set_ne hne]
    exact hc

theorem cells_cons_some {h : Heap} {b : Nat} {c : process} (bs : List Nat)
    (hc : h[b]? = some c) : cells h (b :: bs) = c :: cells h bs := by
  unfold cells
  rw [List.filterMap_cons_some hc]

theorem cells_congr {h h1 : Heap} {bs : List Nat} (he : ∀ a ∈ bs, h1[a]? = h[a]?) :
    cells h1 bs = cells h bs :=
  List.filterMap_congr he

theorem simulate_tick_frame {procs : List Job} {c c1 : process}
    (hs : simulate_tick procs c = .ok c1) :
    c1.next = c.next ∧ c1.prev = c.prev ∧ c1.pid = c.pid ∧ c1.state = c.state := by
  unfold simulate_tick at hs
  cases hst : c.state <;> rw [hst] at hs <;> simp only at hs
  · -- PS_DEAD
    obtain ⟨_, _, hs⟩ := (bind_eq_ok_iff _ _ _).1 hs
    obtain ⟨_, _, hs⟩ := (bind_eq_ok_iff _ _ _).1 hs
    obtain ⟨_, _, hs⟩ := (bind_eq_ok_iff _ _ _).1 hs
    cases hs
    exact ⟨rfl, rfl, rfl, hst⟩
  · -- PS_RUNNING
    obtain ⟨_, _, hs⟩ := (bind_eq_ok_iff _ _ _).1 hs
    obtain ⟨_, _, hs⟩ := (bind_eq_ok_iff _ _ _).1 hs
    obtain ⟨_, _, hs⟩ := (bind_eq_ok_iff _ _ _).1 hs
    cases hs
    exact ⟨rfl, rfl, rfl, rfl⟩
  · -- PS_READY
    obtain ⟨_, _, hs⟩ := (bind_eq_ok_iff _ _ _).1 hs
    cases hs
    exact ⟨rfl, rfl, rfl, rfl⟩


theorem run_loop_ok {procs : List Job} : ∀ (bs : List Nat) (fuel cur : Nat) (s r : LoopState),
    NextPath s.heap cur bs → HEAD ∉ bs → bs.Nodup → run_loop procs fuel cur s = .ok r →
    r.heap.length = s.heap.length ∧
    (∀ a, a ∉ bs → r.heap[a]? = s.heap[a]?) ∧
    (∀ a ∈ bs, ∃ c c1, s.heap[a]? = some c ∧ simulate_tick procs c = .ok c1 ∧
      r.heap[a]? = some c1) ∧
    r.nrunning = s.nrunning + (cells s.heap bs).countP (fun c => c.state = PS_RUNNING) ∧
    r.nready = s.nready + (cells s.heap bs).countP (fun c => c.state = PS_READY) ∧
    r.out = s.out ++ (cells r.heap bs).map row_of
  | [], fuel, cur, s, r, hp, _, _, hr => by
    have hcur : cur = HEAD := hp
    cases fuel with
    | zero => simp [run_loop] at hr
    | succ fuel =>
      rw [run_loop, if_pos hcur] at hr
      cases hr
      simp [cells]
  | b :: bs, fuel, cur, s, r, hp, h0, hnd, hr => by
    obtain ⟨hcur, c, hc, hrest⟩ := hp
    have hb0 : b ≠ HEAD := fun e => h0 (e ▸ List.mem_cons_self _ _)
    have hbs : b ∉ bs := (List.nodup_cons.1 hnd).1
    cases fuel with
    | zero => simp [run_loop] at hr
    | succ fuel =>
      rw [run_loop, if_neg (hcur ▸ hb0), hcur, load_of_get hc, bind_ok_eq] at hr
      obtain ⟨c1, hsim, hr⟩ := (bind_eq_ok_iff _ _ _).1 hr
      rw [store_of_lt c1 (get_lt hc), bind_ok_eq] at hr
      have hfr := simulate_tick_frame hsim
      rw [hfr.1] at hr
      have ih := run_loop_ok bs fuel c.next _ r
        (nextPath_set bs c.next hbs hrest)
        (fun hm => h0 (List.mem_cons_of_mem _ hm)) (List.nodup_cons.1 hnd).2 hr
      simp only at ih
      obtain ⟨i1, i2, i3, i4, i5, i6⟩ := ih
      have hrb : r.heap[b]? = some c1 := by
        rw [i2 b hbs, List.getElem?_set_self (get_lt hc)]
      have hcells : cells (s.heap.set b c1) bs = cells s.heap bs :=
        cells_congr (fun a ha => List.getElem?_set_ne (ne_of_mem_of_not_mem ha hbs).symm)
      refine ⟨?_, ?_, ?_, ?_, ?_, ?_⟩
      · rw [i1, List.length_set]
      · intro a ha
        have hab : b ≠ a := fun e => ha (e ▸ List.mem_cons_self _ _)
        rw [i2 a (fun hm => ha (List.mem_cons_of_mem _ hm)), List.getElem?_set_ne hab]
      · intro a ha
        rcases List.mem_cons.1 ha with h1 | h1
        · rw [h1]
          exact ⟨c, c1, hc, hsim, hrb⟩
        · obtain ⟨d, d1, hd, hd1, hd2⟩ := i3 a h1
          rw [List.getElem?_set_ne (ne_of_mem_of_not_mem h1 hbs).symm] at hd
          exact ⟨d, d1, hd, hd1, hd2⟩
      · rw [i4, hcells, cells_cons_some bs hc, List.countP_cons]
        simp only [decide_eq_true_eq]
        omega
      · rw [i5, hcells, cells_cons_some bs hc, List.countP_cons]
        simp only [decide_eq_true_eq]
        omega
      · rw [i6, cells_cons_some bs hrb, List.map_cons, List.append_assoc]
        rfl

theorem run_loop_total {procs : List Job} : ∀ (bs : List Nat) (fuel cur : Nat) (s : LoopState),
    NextPath s.heap cur bs → HEAD ∉ bs → bs.Nodup → bs.length < fuel →
    (∀ a ∈ bs, ∀ c, s.heap[a]? = some c → ∃ c1, simulate_tick procs c = .ok c1) →
    ∃ r, run_loop procs fuel cur s = .ok r
  | [], fuel, cur, s, hp, _, _, hf, _ => by
    have hcur : cur = HEAD := hp
    cases fuel with
    | zero => simp at hf
    | succ fuel =>
      rw [run_loop, if_pos hcur]
      exact ⟨s, rfl⟩
  | b :: bs, fuel, cur, s, hp, h0, hnd, hf, hall => by
    obtain ⟨hcur, c, hc, hrest⟩ := hp
    have hb0 : b ≠ HEAD := fun e => h0 (e ▸ List.mem_cons_self _ _)
    have hbs : b ∉ bs := (List.nodup_cons.1 hnd).1
    cases fuel with
    | zero => simp at hf
    | succ fuel =>
      obtain ⟨c1, hsim⟩ := hall b (List.mem_cons_self _ _) c hc
      have hfr := simulate_tick_frame hsim
      rw [run_loop, if_neg (hcur ▸ hb0), hcur, load_of_get hc, bind_ok_eq, hsim, bind_ok_eq,
        store_of_lt c1 (get_lt hc), bind_ok_eq, hfr.1]
      apply run_loop_total bs fuel c.next _
        (nextPath_set bs c.next hbs hrest)
        (fun hm => h0 (List.mem_cons_of_mem _ hm)) (List.nodup_cons.1 hnd).2
      · simp only [List.length_cons] at hf
        omega
      · intro a ha d hd
        rw [List.getElem?_set_ne (ne_of_mem_of_not_mem ha hbs).symm] at hd
        exact hall a (List.mem_cons_of_mem _ ha) d hd


theorem nodup_length_le : ∀ (n : Nat) (l : List Nat), l.Nodup → (∀ a ∈ l, a < n) → l.length ≤ n := by
  intro n l hnd hlt
  have hsub : l.toFinset ⊆ Finset.range n := by
    intro a ha
    rw [List.mem_toFinset] at ha
    exact Finset.mem_range.2 (hlt a ha)
  have hcard := Finset.card_le_card hsub
  rw [List.toFinset_card_of_nodup hnd, Finset.card_range] at hcard
  exact hcard

theorem IsQueue.length_lt {h : Heap} {as : List Nat} (hq : IsQueue h as) :
    as.length < h.length := by
  have h1 : (HEAD :: as).length ≤ h.length :=
    nodup_length_le h.length (HEAD :: as) (List.nodup_cons.2 ⟨hq.1, hq.2.1⟩)
      (ring_mem_lt as HEAD hq.2.2)
  rw [List.length_cons] at h1
  omega

theorem IsQueue.congr {h h1 : Heap} {as : List Nat}
    (hn : ∀ a, next_of h1 a = next_of h a) (hp : ∀ a, prev_of h1 a = prev_of h a)
    (hq : IsQueue h as) : IsQueue h1 as :=
  ⟨hq.1, hq.2.1, ring_imp (fun a b hab => ⟨(hn a).trans hab.1, (hp b).trans hab.2⟩)
    as HEAD hq.2.2⟩

/-- What a completed execution pass has done to a well-formed queue. -/
theorem pass_ok {procs : List Job} {h : Heap} {as : List Nat} {r : PassResult}
    (hq : IsQueue h as) (hr : run_and_print_queue procs h = .ok r) :
    (∃ hd, h[HEAD]? = some hd ∧ hd.state = PS_DEAD) ∧
    r.heap.length = h.length ∧
    (∀ a, a ∉ as → r.heap[a]? = h[a]?) ∧
    (∀ a ∈ as, ∃ c c1, h[a]? = some c ∧ simulate_tick procs c = .ok c1 ∧
      r.heap[a]? = some c1) ∧
    count_state PS_RUNNING h as ≤ 1 ∧
    r.ret = decide (count_state PS_RUNNING h as = 0) ∧
    r.warning = (decide (count_state PS_RUNNING h as = 0) &&
      decide (count_state PS_READY h as > 0)) ∧
    r.printed = (cells r.heap as).map row_of := by
  obtain ⟨hd, hhd, hpath⟩ := hq.nextPath
  unfold run_and_print_queue at hr
  rw [load_of_get hhd, bind_ok_eq] at hr
  obtain ⟨_, hdead, hr⟩ := (bind_eq_ok_iff _ _ _).1 hr
  obtain ⟨s, hloop, hr⟩ := (bind_eq_ok_iff _ _ _).1 hr
  obtain ⟨_, hone, hr⟩ := (bind_eq_ok_iff _ _ _).1 hr
  have hdead1 := (cassert_eq_ok_iff _).1 hdead
  have hone1 := (cassert_eq_ok_iff _).1 hone
  rw [decide_eq_true_eq] at hdead1 hone1
  obtain ⟨l1, l2, l3, l4, l5, l6⟩ := run_loop_ok as _ _ _ s hpath hq.1 hq.2.1 hloop
  simp only [Nat.zero_add, List.nil_append] at l1 l2 l3 l4 l5 l6
  cases hr
  refine ⟨⟨hd, hhd, hdead1⟩, l1, l2, l3, ?_, ?_, ?_, l6⟩
  · unfold count_state
    rw [← l4]
    exact hone1
  · unfold count_state
    rw [← l4]
  · unfold count_state
    rw [← l4, ← l5]

/-- The execution pass completes on a well-formed queue whose head is
`PS_DEAD`, whose cells all pass the checks of the loop body, and which has at
most one `PS_RUNNING` cell. -/
theorem pass_total {procs : List Job} {h : Heap} {as : List Nat} {hd : process}
    (hq : IsQueue h as) (hhd : h[HEAD]? = some hd) (hdead : hd.state = PS_DEAD)
    (hall : ∀ a ∈ as, ∀ c, h[a]? = some c → ∃ c1, simulate_tick procs c = .ok c1)
    (hone : count_state PS_RUNNING h as ≤ 1) :
    ∃ r, run_and_print_queue procs h = .ok r := by
  obtain ⟨hd1, hhd1, hpath⟩ := hq.nextPath
  rw [hhd] at hhd1
  cases hhd1
  obtain ⟨s, hloop⟩ := @run_loop_total procs as h.length hd.next
    { heap := h, nrunning := 0, nready := 0, out := [] } hpath hq.1 hq.2.1 hq.length_lt hall
  obtain ⟨_, _, _, l4, _, _⟩ := run_loop_ok as _ _ _ s hpath hq.1 hq.2.1 hloop
  simp only [Nat.zero_add] at l4
  unfold run_and_print_queue
  rw [load_of_get hhd, bind_ok_eq]
  have e1 : cassert (decide (hd.state = PS_DEAD)) = .ok () :=
    (cassert_eq_ok_iff _).2 (decide_eq_true hdead)
  have e2 : cassert (decide (s.nrunning ≤ 1)) = .ok () :=
    (cassert_eq_ok_iff _).2 (decide_eq_true (by rw [l4]; exact hone))
  rw [e1, bind_ok_eq, hloop, bind_ok_eq, e2, bind_ok_eq]
  exact ⟨_, rfl⟩

theorem pass_queue {procs : List Job} {h : Heap} {as : List Nat} {r : PassResult}
    (hq : IsQueue h as) (hr : run_and_print_queue procs h = .ok r) : IsQueue r.heap as := by
  obtain ⟨_, _, p2, p3, _⟩ := pass_ok hq hr
  have key : ∀ a, next_of r.heap a = next_of h a ∧ prev_of r.heap a = prev_of h a := by
    intro a
    by_cases ha : a ∈ as
    · obtain ⟨c, c1, hc, hsim, hc1⟩ := p3 a ha
      have hfr := simulate_tick_frame hsim
      unfold next_of prev_of
      rw [hc, hc1]
      simp [hfr.1, hfr.2.1]
    · unfold next_of prev_of
      rw [p2 a ha]
      exact ⟨rfl, rfl⟩
  exact hq.congr (fun a => (key a).1) (fun a => (key a).2)


theorem simulate_tick_running {procs : List Job} {c c1 : process}
    (hst : c.state = PS_RUNNING) (hs : simulate_tick procs c = .ok c1) :
    ∃ job, procs[c.pid]? = some job ∧
      (c.cycles_done + c.cycles_todo) % UINT_MOD ≤ job.rtime ∧ 0 < c.cycles_todo ∧
      c1 = { c with cycles_done := (c.cycles_done + 1) % UINT_MOD,
                    cycles_todo := c.cycles_todo - 1 } := by
  unfold simulate_tick at hs
  rw [hst] at hs
  simp only at hs
  obtain ⟨job, hjob, hs⟩ := (bind_eq_ok_iff _ _ _).1 hs
  obtain ⟨_, ha1, hs⟩ := (bind_eq_ok_iff _ _ _).1 hs
  obtain ⟨_, ha2, hs⟩ := (bind_eq_ok_iff _ _ _).1 hs
  have h1 := (cassert_eq_ok_iff _).1 ha1
  have h2 := (cassert_eq_ok_iff _).1 ha2
  rw [decide_eq_true_eq] at h1 h2
  cases hs
  refine ⟨job, (lookup_eq_ok_iff _ _ _).1 hjob, h1, h2, ?_⟩
  rw [hst]

theorem simulate_tick_ready {procs : List Job} {c c1 : process}
    (hst : c.state = PS_READY) (hs : simulate_tick procs c = .ok c1) :
    0 < c.cycles_todo ∧
      c1 = { c with cycles_waited := (c.cycles_waited + 1) % UINT_MOD } := by
  unfold simulate_tick at hs
  rw [hst] at hs
  simp only at hs
  obtain ⟨_, ha1, hs⟩ := (bind_eq_ok_iff _ _ _).1 hs
  have h1 := (cassert_eq_ok_iff _).1 ha1
  rw [decide_eq_true_eq] at h1
  cases hs
  refine ⟨h1, ?_⟩
  rw [hst]

theorem simulate_tick_dead {procs : List Job} {c c1 : process}
    (hst : c.state = PS_DEAD) (hs : simulate_tick procs c = .ok c1) :
    c.cycles_todo = 0 ∧ (∃ job, procs[c.pid]? = some job ∧ c.cycles_done = job.rtime) ∧
      c1 = c := by
  unfold simulate_tick at hs
  rw [hst] at hs
  simp only at hs
  obtain ⟨_, ha1, hs⟩ := (bind_eq_ok_iff _ _ _).1 hs
  obtain ⟨job, hjob, hs⟩ := (bind_eq_ok_iff _ _ _).1 hs
  obtain ⟨_, ha2, hs⟩ := (bind_eq_ok_iff _ _ _).1 hs
  have h1 := (cassert_eq_ok_iff _).1 ha1
  have h2 := (cassert_eq_ok_iff _).1 ha2
  rw [decide_eq_true_eq] at h1 h2
  cases hs
  exact ⟨h1, ⟨job, (lookup_eq_ok_iff _ _ _).1 hjob, h2⟩, rfl⟩

/-! ## The execution pass: counters -/

/-- C1. On a well-formed queue on which `run_and_print_queue` completes, every
cell of the queue is changed as follows, in unsigned arithmetic: a
`PS_RUNNING` cell gets `cycles_done + 1` and `cycles_todo - 1` (with
`cycles_todo > 0` before) and keeps `cycles_waited`; a `PS_READY` cell gets
`cycles_waited + 1` and keeps `cycles_done` and `cycles_todo`; a `PS_DEAD`
cell keeps all three counters. -/
theorem pass_counters (procs : List Job) (h : Heap) (as : List Nat) (r : PassResult)
    (hq : IsQueue h as) (hr : run_and_print_queue procs h = .ok r) :
    ∀ a ∈ as, ∃ c c1, h[a]? = some c ∧ r.heap[a]? = some c1 ∧
      (c.state = PS_RUNNING →
        c1.cycles_done = (c.cycles_done + 1) % UINT_MOD ∧
        0 < c.cycles_todo ∧ c1.cycles_todo = c.cycles_todo - 1 ∧
        c1.cycles_waited = c.cycles_waited) ∧
      (c.state = PS_READY →
        c1.cycles_waited = (c.cycles_waited + 1) % UINT_MOD ∧
        c1.cycles_done = c.cycles_done ∧
        c1.cycles_todo = c.cycles_todo) ∧
      (c.state = PS_DEAD →
        c1.cycles_done = c.cycles_done ∧
        c1.cycles_waited = c.cycles_waited ∧
        c1.cycles_todo = c.cycles_todo) := by
  intro a ha
  obtain ⟨_, _, _, p3, _⟩ := pass_ok hq hr
  obtain ⟨c, c1, hc, hsim, hc1⟩ := p3 a ha
  refine ⟨c, c1, hc, hc1, ?_, ?_, ?_⟩
  · intro hst
    obtain ⟨job, _, _, hpos, he⟩ := simulate_tick_running hst hsim
    rw [he]
    exact ⟨rfl, hpos, rfl, rfl⟩
  · intro hst
    obtain ⟨_, he⟩ := simulate_tick_ready hst hsim
    rw [he]
    exact ⟨rfl, rfl, rfl⟩
  · intro hst
    obtain ⟨_, _, he⟩ := simulate_tick_dead hst hsim
    rw [he]
    exact ⟨rfl, rfl, rfl⟩

/-- The pass on `demo_heap` (one running, one ready, one dead record)
completes and changes the counters of its three cells as stated. -/
theorem pass_counters_witness :
    IsQueue demo_heap [1, 2, 3] ∧
    run_and_print_queue CONFIG_PROCS demo_heap = .ok demo_pass ∧
    ∀ a ∈ [1, 2, 3], ∃ c c1, demo_heap[a]? = some c ∧ demo_pass.heap[a]? = some c1 ∧
      (c.state = PS_RUNNING →
        c1.cycles_done = (c.cycles_done + 1) % UINT_MOD ∧
        0 < c.cycles_todo ∧ c1.cycles_todo = c.cycles_todo - 1 ∧
        c1.cycles_waited = c.cycles_waited) ∧
      (c.state = PS_READY →
        c1.cycles_waited = (c.cycles_waited + 1) % UINT_MOD ∧
        c1.cycles_done = c.cycles_done ∧
        c1.cycles_todo = c.cycles_todo) ∧
      (c.state = PS_DEAD →
        c1.cycles_done = c.cycles_done ∧
        c1.cycles_waited = c.cycles_waited ∧
        c1.cycles_todo = c.cycles_todo) :=
  ⟨by decide, rfl, pass_counters CONFIG_PROCS demo_heap [1, 2, 3] demo_pass (by decide) rfl⟩

/-! ## The execution pass: states -/

/-- The pass keeps the state of every cell of the queue. -/
theorem pass_state {procs : List Job} {h : Heap} {as : List Nat} {r : PassResult}
    (hq : IsQueue h as) (hr : run_and_print_queue procs h = .ok r) :
    ∀ a ∈ as, ∃ c c1, h[a]? = some c ∧ r.heap[a]? = some c1 ∧ c1.state = c.state := by
  intro a ha
  obtain ⟨_, _, _, p3, _⟩ := pass_ok hq hr
  obtain ⟨c, c1, hc, hsim, hc1⟩ := p3 a ha
  exact ⟨c, c1, hc, hc1, (simulate_tick_frame hsim).2.2.2⟩

theorem count_state_congr {st : process_state} {h h1 : Heap} : ∀ (as : List Nat),
    (∀ a ∈ as, ∃ c c1, h[a]? = some c ∧ h1[a]? = some c1 ∧ c1.state = c.state) →
    count_state st h1 as = count_state st h as
  | [], _ => rfl
  | a :: as, hall => by
    obtain ⟨c, c1, hc, hc1, hst⟩ := hall a (List.mem_cons_self _ _)
    have ih := @count_state_congr st h h1 as (fun b hb => hall b (List.mem_cons_of_mem _ hb))
    unfold count_state at ih ⊢
    rw [cells_cons_some as hc, cells_cons_some as hc1, List.countP_cons, List.countP_cons, ih, hst]

theorem pass_count_state {procs : List Job} {h : Heap} {as : List Nat} {r : PassResult}
    (hq : IsQueue h as) (hr : run_and_print_queue procs h = .ok r) (st : process_state) :
    count_state st r.heap as = count_state st h as :=
  count_state_congr as (pass_state hq hr)

/-- C3, as the code has it. When the execution pass decrements the
`cycles_todo` of a `PS_RUNNING` cell to 0, the cell is still `PS_RUNNING`
after the pass: the pass changes no state. -/
theorem pass_keeps_running_at_zero (procs : List Job) (h : Heap) (as : List Nat)
    (r : PassResult) (hq : IsQueue h as) (hr : run_and_print_queue procs h = .ok r)
    (a : Nat) (ha : a ∈ as) (c : process) (hc : h[a]? = some c)
    (hrun : c.state = PS_RUNNING) (hone : c.cycles_todo = 1) :
    ∃ c1, r.heap[a]? = some c1 ∧ c1.cycles_todo = 0 ∧ c1.state = PS_RUNNING := by
  obtain ⟨_, _, _, p3, _⟩ := pass_ok hq hr
  obtain ⟨d, c1, hd, hsim, hc1⟩ := p3 a ha
  rw [hc] at hd
  cases hd
  obtain ⟨_, _, _, _, he⟩ := simulate_tick_running hrun hsim
  refine ⟨c1, hc1, ?_, ?_⟩
  · rw [he]
    show c.cycles_todo - 1 = 0
    omega
  · rw [(simulate_tick_frame hsim).2.2.2, hrun]

/-- The pass on `last_tick_heap` brings the running record to
`cycles_todo = 0` and leaves it `PS_RUNNING`. -/
theorem pass_keeps_running_at_zero_witness :
    IsQueue last_tick_heap [1] ∧
    run_and_print_queue CONFIG_PROCS last_tick_heap = .ok last_tick_pass ∧
    ∃ c1, last_tick_pass.heap[1]? = some c1 ∧ c1.cycles_todo = 0 ∧ c1.state = PS_RUNNING :=
  ⟨by decide, rfl,
   pass_keeps_running_at_zero CONFIG_PROCS last_tick_heap [1] last_tick_pass (by decide) rfl
     1 (by decide) _ rfl rfl rfl⟩

/-- C3 fails as stated. On `last_tick_heap` the pass completes and decrements
the `cycles_todo` of the running record from 1 to 0, yet the record is not
`PS_DEAD` afterwards. -/
theorem pass_running_to_dead_counterexample :
    IsQueue last_tick_heap [1] ∧
    (cells last_tick_heap [1]).map (fun c => (c.cycles_todo, c.state)) = [(1, PS_RUNNING)] ∧
    run_and_print_queue CONFIG_PROCS last_tick_heap = .ok last_tick_pass ∧
    (cells last_tick_pass.heap [1]).map (fun c => (c.cycles_todo, c.state)) = [(0, PS_RUNNING)] ∧
    ¬ (cells last_tick_pass.heap [1]).all (fun c => decide (c.state = PS_DEAD)) = true :=
  ⟨by decide, by decide, rfl, by decide, by decide⟩

/-! ## Invariants of a run -/

theorem mem_records {h : Heap} {as : List Nat} {d : Data} :
    d ∈ records h as ↔ ∃ a ∈ as, ∃ c, h[a]? = some c ∧ c.data = d := by
  unfold records cells
  rw [List.mem_map]
  constructor
  · rintro ⟨c, hc, hd⟩
    obtain ⟨a, ha, hac⟩ := List.mem_filterMap.1 hc
    exact ⟨a, ha, c, hac, hd⟩
  · rintro ⟨a, ha, c, hac, hd⟩
    exact ⟨c, List.mem_filterMap.2 ⟨a, ha, hac⟩, hd⟩

theorem enqueue_ok_inv {procs : List Job} {limit : Nat} {h h1 : Heap} {pid : Nat}
    (he : enqueue procs limit h pid = .ok h1) :
    h.length < limit ∧ ∃ job, procs[pid]? = some job := by
  unfold enqueue at he
  by_cases hlim : h.length < limit
  · rw [if_pos hlim] at he
    obtain ⟨job, hjob, _⟩ := (bind_eq_ok_iff _ _ _).1 he
    exact ⟨hlim, job, (lookup_eq_ok_iff _ _ _).1 hjob⟩
  · rw [if_neg hlim] at he
    cases he

theorem start_queue (junk : List process) : IsQueue (_head :: junk) [] := by
  refine ⟨List.not_mem_nil _, List.nodup_nil, ?_, ?_⟩
  · simp [next_of, HEAD, _head]
  · simp [prev_of, HEAD, _head]

theorem records_single {h : Heap} {a : Nat} {d : Data}
    (hd : (h[a]?).map process.data = some d) : records h [a] = [d] := by
  rw [records_eq]
  simp only [List.filterMap_cons, hd, List.filterMap_nil]

/-- The records after `enqueue`: those held before, then the new one. -/
theorem enqueue_records {procs : List Job} {limit : Nat} {h h1 : Heap} {as : List Nat}
    {pid : Nat} (hq : IsQueue h as) (he : enqueue procs limit h pid = .ok h1) :
    ∃ job, procs[pid]? = some job ∧ IsQueue h1 (as ++ [h.length]) ∧
      h1.length = h.length + 1 ∧
      records h1 (as ++ [h.length]) = records h as ++
        [{ pid := pid, cycles_done := 0, cycles_waited := 0,
           cycles_todo := job.rtime, state := PS_READY }] ∧
      (h1[HEAD]?).map process.data = (h[HEAD]?).map process.data := by
  obtain ⟨hlim, job, hjob⟩ := enqueue_ok_inv he
  obtain ⟨h2, he2, hlen, hq2, hold, hnew, _, _⟩ := enqueue_queue hq hlim hjob
  rw [he] at he2
  cases he2
  refine ⟨job, hjob, hq2, hlen, ?_, hold HEAD (by have := hq.head_lt; omega)⟩
  rw [records_append, records_single hnew]
  congr 1
  apply records_congr
  intro a ha
  exact hold a (by have := hq.mem_lt a ha; omega)

theorem stateOnly_get {h h1 : Heap} (hs : StateOnly h h1) (a : Nat) :
    (h1[a]?).map process.frame = (h[a]?).map process.frame := by
  unfold StateOnly at hs
  rw [← List.getElem?_map, ← List.getElem?_map, hs]

theorem stateOnly_cell {h h1 : Heap} (hs : StateOnly h h1) {a : Nat} {c1 : process}
    (hc1 : h1[a]? = some c1) :
    ∃ c, h[a]? = some c ∧ c1.pid = c.pid ∧ c1.cycles_done = c.cycles_done ∧
      c1.cycles_waited = c.cycles_waited ∧ c1.cycles_todo = c.cycles_todo ∧
      c1.next = c.next ∧ c1.prev = c.prev := by
  have hg := stateOnly_get hs a
  rw [hc1] at hg
  cases hc : h[a]? with
  | none => rw [hc] at hg; cases hg
  | some c =>
    rw [hc] at hg
    have he : c1.frame = c.frame := Option.some.inj hg
    unfold process.frame at he
    injection he with e1 e2 e3 e4 e5 e6
    exact ⟨c, rfl, e1, e2, e3, e4, e5, e6⟩

theorem stateOnly_queue {h h1 : Heap} {as : List Nat} (hs : StateOnly h h1)
    (hq : IsQueue h as) : IsQueue h1 as := by
  have hg := stateOnly_get hs
  apply hq.congr
  · intro a
    have := congrArg (Option.map process.next) (hg a)
    simpa [next_of, Option.map_map, Function.comp_def, process.frame] using this
  · intro a
    have := congrArg (Option.map process.prev) (hg a)
    simpa [prev_of, Option.map_map, Function.comp_def, process.frame] using this

theorem simulate_tick_balanced {procs : List Job} {c c1 : process}
    (hprocs : ∀ j ∈ procs, j.rtime < UINT_MOD)
    (hb : Balanced procs c.data) (hs : simulate_tick procs c = .ok c1) :
    Balanced procs c1.data := by
  obtain ⟨job, hjob, hsum⟩ := hb
  have hlt : job.rtime < UINT_MOD := by
    obtain ⟨hi, he⟩ := List.getElem?_eq_some.1 hjob
    rw [← he]
    exact hprocs _ (List.getElem_mem hi)
  cases hst : c.state
  · obtain ⟨_, _, he⟩ := simulate_tick_dead hst hs
    rw [he]
    exact ⟨job, hjob, hsum⟩
  · obtain ⟨_, _, _, hpos, he⟩ := simulate_tick_running hst hs
    rw [he]
    refine ⟨job, hjob, ?_⟩
    show (c.cycles_done + 1) % UINT_MOD + (c.cycles_todo - 1) = job.rtime
    have hsum1 : c.cycles_done + c.cycles_todo = job.rtime := hsum
    have hsmall : c.cycles_done + 1 < UINT_MOD := by omega
    rw [Nat.mod_eq_of_lt hsmall]
    omega
  · obtain ⟨_, he⟩ := simulate_tick_ready hst hs
    rw [he]
    exact ⟨job, hjob, hsum⟩


theorem pass_balanced {procs : List Job} {h : Heap} {as : List Nat} {r : PassResult}
    (hprocs : ∀ j ∈ procs, j.rtime < UINT_MOD) (hq : IsQueue h as)
    (hr : run_and_print_queue procs h = .ok r)
    (hb : ∀ d ∈ records h as, Balanced procs d) :
    ∀ d ∈ records r.heap as, Balanced procs d := by
  intro d hd
  obtain ⟨a, ha, c1, hc1, hd1⟩ := mem_records.1 hd
  obtain ⟨_, _, _, p3, _⟩ := pass_ok hq hr
  obtain ⟨c, c2, hc, hsim, hc2⟩ := p3 a ha
  rw [hc1] at hc2
  cases hc2
  rw [← hd1]
  exact simulate_tick_balanced hprocs (hb _ (mem_records.2 ⟨a, ha, c, hc, rfl⟩)) hsim

theorem reachable_balanced {procs : List Job} {limit : Nat} {func : Policy} {h : Heap}
    (hprocs : ∀ j ∈ procs, j.rtime < UINT_MOD) (hfunc : ChangesOnlyState func)
    (hreach : Reachable procs limit func h) :
    ∃ as, IsQueue h as ∧ ∀ d ∈ records h as, Balanced procs d := by
  induction hreach with
  | start junk =>
    exact ⟨[], start_queue junk, fun d hd => by simp [records, cells] at hd⟩
  | enq pid _ he ih =>
    obtain ⟨as, hq, hb⟩ := ih
    obtain ⟨job, hjob, hq1, _, hrec, _⟩ := enqueue_records hq he
    refine ⟨_, hq1, ?_⟩
    intro d hd
    rw [hrec] at hd
    rcases List.mem_append.1 hd with h1 | h1
    · exact hb d h1
    · rw [List.mem_singleton] at h1
      rw [h1]
      exact ⟨job, hjob, Nat.zero_add _⟩
  | select _ hsel ih =>
    obtain ⟨as, hq, hb⟩ := ih
    have hs := hfunc _ _ _ hsel
    refine ⟨as, stateOnly_queue hs hq, ?_⟩
    intro d hd
    obtain ⟨a, ha, c1, hc1, hd1⟩ := mem_records.1 hd
    obtain ⟨c, hc, e1, e2, _, e4, _, _⟩ := stateOnly_cell hs hc1
    obtain ⟨job, hjob, hsum⟩ := hb _ (mem_records.2 ⟨a, ha, c, hc, rfl⟩)
    rw [← hd1]
    refine ⟨job, ?_, ?_⟩
    · show procs[c1.pid]? = some job
      rw [e1]
      exact hjob
    · show c1.cycles_done + c1.cycles_todo = job.rtime
      rw [e2, e4]
      exact hsum
  | tick _ hr ih =>
    obtain ⟨as, hq, hb⟩ := ih
    exact ⟨as, pass_queue hq hr, pass_balanced hprocs hq hr hb⟩

theorem empty_changes_only_state : ChangesOnlyState empty := by
  intro h h1 msgs he
  unfold empty at he
  cases he
  rfl

/-- C2. In every heap a run can pass through, for every workload table (with
run times in the range of `unsigned`) and every scheduling function that
changes only state fields, each record of the queue has
`cycles_done + cycles_todo` equal to the run time of its job
`processes[pid].rtime`. -/
theorem counters_balanced (procs : List Job) (limit : Nat) (func : Policy) (h : Heap)
    (hprocs : ∀ j ∈ procs, j.rtime < UINT_MOD) (hfunc : ChangesOnlyState func)
    (hreach : Reachable procs limit func h) :
    ∃ as, IsQueue h as ∧
      ∀ d ∈ records h as, ∃ job, procs[d.pid]? = some job ∧
        d.cycles_done + d.cycles_todo = job.rtime := by
  obtain ⟨as, hq, hb⟩ := reachable_balanced hprocs hfunc hreach
  refine ⟨as, hq, ?_⟩
  intro d hd
  obtain ⟨job, hjob, hsum⟩ := hb d hd
  exact ⟨job, hjob, hsum⟩

/-- After one tick of the built-in workload under the fallback policy the
heap `waited_heap` is reached, and its record is balanced. -/
theorem counters_balanced_witness :
    (∀ j ∈ CONFIG_PROCS, j.rtime < UINT_MOD) ∧ ChangesOnlyState empty ∧
    Reachable CONFIG_PROCS 8 empty waited_heap ∧
    ∃ as, IsQueue waited_heap as ∧
      ∀ d ∈ records waited_heap as, ∃ job, CONFIG_PROCS[d.pid]? = some job ∧
        d.cycles_done + d.cycles_todo = job.rtime :=
  have hreach : Reachable CONFIG_PROCS 8 empty waited_heap :=
    Reachable.tick (r := waited_pass)
      (Reachable.select (Reachable.enq 0 (Reachable.start []) rfl) rfl) rfl
  ⟨by decide, empty_changes_only_state, hreach,
   counters_balanced CONFIG_PROCS 8 empty waited_heap (by decide)
     empty_changes_only_state hreach⟩


theorem algos_empty {name : String} {func : Policy} (hmem : (name, func) ∈ algos) :
    func = empty := by
  simp only [algos, List.mem_cons, Prod.mk.injEq, List.mem_singleton, List.mem_nil_iff,
    or_false] at hmem
  rcases hmem with ⟨_, h⟩ | ⟨_, h⟩ | ⟨_, h⟩ | ⟨_, h⟩ | ⟨_, h⟩ <;> exact h

theorem count_state_records (st : process_state) (h : Heap) (as : List Nat) :
    count_state st h as = (records h as).countP (fun d => d.state = st) := by
  unfold count_state records
  rw [List.countP_map]
  rfl

theorem count_state_zero {st : process_state} {h : Heap} {as : List Nat}
    (hne : ∀ d ∈ records h as, d.state ≠ st) : count_state st h as = 0 := by
  rw [count_state_records, List.countP_eq_zero]
  intro d hd
  simp only [decide_eq_true_eq]
  exact hne d hd

theorem pass_records_state {procs : List Job} {h : Heap} {as : List Nat} {r : PassResult}
    (hq : IsQueue h as) (hr : run_and_print_queue procs h = .ok r) :
    ∀ d1 ∈ records r.heap as, ∃ d ∈ records h as, d1.state = d.state := by
  intro d1 hd1
  obtain ⟨a, ha, c1, hc1, he⟩ := mem_records.1 hd1
  obtain ⟨c, c2, hc, hc2, hst⟩ := pass_state hq hr a ha
  rw [hc1] at hc2
  cases hc2
  refine ⟨c.data, mem_records.2 ⟨a, ha, c, hc, rfl⟩, ?_⟩
  rw [← he]
  exact hst

theorem pass_head {procs : List Job} {h : Heap} {as : List Nat} {r : PassResult}
    (hq : IsQueue h as) (hr : run_and_print_queue procs h = .ok r) :
    r.heap[HEAD]? = h[HEAD]? := by
  obtain ⟨_, _, p2, _⟩ := pass_ok hq hr
  exact p2 HEAD hq.1

/-- Under the fallback policy every record is `PS_READY` and the head is
`PS_DEAD`, in every heap of a run. -/
theorem reachable_empty {procs : List Job} {limit : Nat} {h : Heap}
    (hreach : Reachable procs limit empty h) :
    ∃ as, IsQueue h as ∧ (∀ d ∈ records h as, d.state = PS_READY) ∧
      (h[HEAD]?).map process.data = some _head.data := by
  induction hreach with
  | start junk =>
    exact ⟨[], start_queue junk, fun d hd => by simp [records, cells] at hd,
      by simp [HEAD]⟩
  | enq pid _ he ih =>
    obtain ⟨as, hq, hb, hh⟩ := ih
    obtain ⟨job, _, hq1, _, hrec, hhead⟩ := enqueue_records hq he
    refine ⟨_, hq1, ?_, hhead.trans hh⟩
    intro d hd
    rw [hrec] at hd
    rcases List.mem_append.1 hd with h1 | h1
    · exact hb d h1
    · rw [List.mem_singleton] at h1
      rw [h1]
  | select _ hsel ih =>
    unfold empty at hsel
    cases hsel
    exact ih
  | tick _ hr ih =>
    obtain ⟨as, hq, hb, hh⟩ := ih
    refine ⟨as, pass_queue hq hr, ?_, ?_⟩
    · intro d1 hd1
      obtain ⟨d, hd, hst⟩ := pass_records_state hq hr d1 hd1
      rw [hst]
      exact hb d hd
    · rw [pass_head hq hr]
      exact hh

/-- C6. For every workload table and each of the five registered policies as
linked here, every heap a run can pass through holds a well-formed queue in
which at most one record is `PS_RUNNING`, and the dummy head is `PS_DEAD`. -/
theorem at_most_one_running (procs : List Job) (limit : Nat) (name : String) (func : Policy)
    (h : Heap) (hmem : (name, func) ∈ algos) (hreach : Reachable procs limit func h) :
    ∃ as, IsQueue h as ∧ count_state PS_RUNNING h as ≤ 1 ∧
      ∃ hd, h[HEAD]? = some hd ∧ hd.state = PS_DEAD := by
  rw [algos_empty hmem] at hreach
  obtain ⟨as, hq, hb, hh⟩ := reachable_empty hreach
  refine ⟨as, hq, ?_, ?_⟩
  · rw [count_state_zero]
    · exact Nat.zero_le 1
    · intro d hd hrun
      rw [hb d hd] at hrun
      cases hrun
  · cases hc : h[HEAD]? with
    | none => rw [hc] at hh; cases hh
    | some hd =>
      rw [hc] at hh
      refine ⟨hd, rfl, ?_⟩
      have := congrArg Data.state (Option.some.inj hh)
      exact this

/-- The heap `waited_heap` is reached in the run of "Round Robin" on the
built-in workload; no record is running there and the head is dead. -/
theorem at_most_one_running_witness :
    ("Round Robin", rr) ∈ algos ∧ Reachable CONFIG_PROCS 8 rr waited_heap ∧
    ∃ as, IsQueue waited_heap as ∧ count_state PS_RUNNING waited_heap as ≤ 1 ∧
      ∃ hd, waited_heap[HEAD]? = some hd ∧ hd.state = PS_DEAD :=
  have hmem : ("Round Robin", rr) ∈ algos := List.mem_cons_self _ _
  have hreach : Reachable CONFIG_PROCS 8 rr waited_heap :=
    Reachable.tick (r := waited_pass)
      (Reachable.select (Reachable.enq 0 (Reachable.start []) rfl) rfl) rfl
  ⟨hmem, hreach,
   at_most_one_running CONFIG_PROCS 8 "Round Robin" rr waited_heap hmem hreach⟩

/-! ## `enqueue` -/

/-- C7. For a well-formed queue and a pid that indexes the workload table,
`enqueue` (when `malloc` succeeds) returns a well-formed queue whose
traversal is the old one followed by the new cell; the records are the old
records, unchanged and in the same order, followed by one new record with that
pid, `cycles_done = 0`, `cycles_waited = 0`, `cycles_todo` the run time of the
job and state `PS_READY`. -/
theorem enqueue_appends (procs : List Job) (limit : Nat) (h : Heap) (as : List Nat)
    (pid : Nat) (hq : IsQueue h as) (hlim : h.length < limit) (hpid : pid < procs.length) :
    ∃ h1 job, procs[pid]? = some job ∧ enqueue procs limit h pid = .ok h1 ∧
      IsQueue h1 (as ++ [h.length]) ∧
      records h1 (as ++ [h.length]) = records h as ++
        [{ pid := pid, cycles_done := 0, cycles_waited := 0,
           cycles_todo := job.rtime, state := PS_READY }] ∧
      records h1 as = records h as := by
  have hjob : procs[pid]? = some procs[pid] := List.getElem?_eq_getElem hpid
  obtain ⟨h1, he, _, hq1, hold, _⟩ := enqueue_queue hq hlim hjob
  obtain ⟨job, hjob1, _, _, hrec, _⟩ := enqueue_records hq he
  refine ⟨h1, job, hjob1, he, hq1, hrec, ?_⟩
  apply records_congr
  intro a ha
  exact hold a (by have := hq.mem_lt a ha; omega)

/-- Enqueueing pid 1 of the built-in workload behind the record of `ready_heap`. -/
theorem enqueue_appends_witness :
    IsQueue ready_heap [1] ∧ ready_heap.length < 8 ∧ 1 < CONFIG_PROCS.length ∧
    ∃ h1 job, CONFIG_PROCS[1]? = some job ∧ enqueue CONFIG_PROCS 8 ready_heap 1 = .ok h1 ∧
      IsQueue h1 ([1] ++ [ready_heap.length]) ∧
      records h1 ([1] ++ [ready_heap.length]) = records ready_heap [1] ++
        [{ pid := 1, cycles_done := 0, cycles_waited := 0,
           cycles_todo := job.rtime, state := PS_READY }] ∧
      records h1 [1] = records ready_heap [1] :=
  ⟨by decide, by decide, by decide,
   enqueue_appends CONFIG_PROCS 8 ready_heap [1] 1 (by decide) (by decide) (by decide)⟩


/-! ## The tick loop -/

/-- One tick of the loop of `main` whose three calls return: the loop is left
when `run_and_print_queue` returned true and goes on with the next tick
otherwise. -/
theorem tick_loop_step {func : Policy} {procs : List Job} {limit fuel tick : Nat}
    {h0 h1 h2 : Heap} {msgs : List Msg} {r : PassResult} (reports : List TickReport)
    (hadm : insert_arrived procs limit tick h0 = .ok h1) (hpol : func h1 = .ok (h2, msgs))
    (hr : run_and_print_queue procs h2 = .ok r) :
    tick_loop func procs limit (fuel + 1) tick h0 reports =
      if r.ret then
        .ok { heap := r.heap, last_tick := tick,
              reports := reports ++
                [⟨tick, msgs ++ (if r.warning then [Msg.no_running] else []), r.printed⟩] }
      else
        tick_loop func procs limit fuel ((tick + 1) % SIZE_MOD) r.heap
          (reports ++
            [⟨tick, msgs ++ (if r.warning then [Msg.no_running] else []), r.printed⟩]) := by
  rw [tick_loop, hadm, bind_ok_eq, hpol, bind_ok_eq]
  simp only [hr, bind_ok_eq]
  rfl

/-- C4. When the three calls of a tick return and, after the execution pass,
no record of the queue is `PS_READY` or `PS_RUNNING`, then
`run_and_print_queue` has returned true (without the warning) and the tick
loop ends at this tick: it returns with `last_tick = tick` and the report of
this tick as the last one. -/
theorem run_ends_without_work (func : Policy) (procs : List Job) (limit fuel tick : Nat)
    (h0 h1 h2 : Heap) (msgs : List Msg) (as : List Nat) (r : PassResult)
    (reports : List TickReport)
    (hadm : insert_arrived procs limit tick h0 = .ok h1) (hpol : func h1 = .ok (h2, msgs))
    (hq : IsQueue h2 as) (hr : run_and_print_queue procs h2 = .ok r)
    (hnone : ∀ d ∈ records r.heap as, d.state ≠ PS_READY ∧ d.state ≠ PS_RUNNING) :
    r.ret = true ∧
    tick_loop func procs limit (fuel + 1) tick h0 reports =
      .ok { heap := r.heap, last_tick := tick,
            reports := reports ++ [⟨tick, msgs, r.printed⟩] } := by
  obtain ⟨_, _, _, _, _, hret, hwarn, _⟩ := pass_ok hq hr
  have hrun : count_state PS_RUNNING h2 as = 0 := by
    rw [← pass_count_state hq hr]
    exact count_state_zero (fun d hd => (hnone d hd).2)
  have hready : count_state PS_READY h2 as = 0 := by
    rw [← pass_count_state hq hr]
    exact count_state_zero (fun d hd => (hnone d hd).1)
  have hret1 : r.ret = true := by
    rw [hret, hrun]
    rfl
  have hwarn1 : r.warning = false := by
    rw [hwarn, hrun, hready]
    rfl
  refine ⟨hret1, ?_⟩
  rw [tick_loop_step reports hadm hpol hr, if_pos hret1, hwarn1]
  simp

/-- Tick 1 of the built-in workload on `done_heap`, whose only record is
dead: the loop ends at tick 1. -/
theorem run_ends_without_work_witness :
    insert_arrived CONFIG_PROCS 8 1 done_heap = .ok done_heap ∧
    empty done_heap = .ok (done_heap, [Msg.unimplemented]) ∧
    IsQueue done_heap [1] ∧
    run_and_print_queue CONFIG_PROCS done_heap = .ok done_pass ∧
    (∀ d ∈ records done_pass.heap [1], d.state ≠ PS_READY ∧ d.state ≠ PS_RUNNING) ∧
    done_pass.ret = true ∧
    tick_loop empty CONFIG_PROCS 8 (4 + 1) 1 done_heap [] =
      .ok { heap := done_pass.heap, last_tick := 1,
            reports := [] ++ [⟨1, [Msg.unimplemented], done_pass.printed⟩] } :=
  ⟨rfl, rfl, by decide, rfl, by decide,
   run_ends_without_work empty CONFIG_PROCS 8 4 1 done_heap done_heap done_heap
     [Msg.unimplemented] [1] done_pass [] rfl rfl (by decide) rfl (by decide)⟩

/-- C5, as the code has it. When the policy call of a tick leaves at least one
`PS_READY` record and no `PS_RUNNING` record and the execution pass returns,
the pass has printed the warning and returned true, and the tick loop ends at
this tick: it returns with `last_tick = tick` and the report of this tick,
which carries the warning, as the last one. -/
theorem run_ends_without_running (func : Policy) (procs : List Job) (limit fuel tick : Nat)
    (h0 h1 h2 : Heap) (msgs : List Msg) (as : List Nat) (r : PassResult)
    (reports : List TickReport)
    (hadm : insert_arrived procs limit tick h0 = .ok h1) (hpol : func h1 = .ok (h2, msgs))
    (hq : IsQueue h2 as) (hr : run_and_print_queue procs h2 = .ok r)
    (hready : ∃ d ∈ records h2 as, d.state = PS_READY)
    (hnorun : ∀ d ∈ records h2 as, d.state ≠ PS_RUNNING) :
    r.warning = true ∧ r.ret = true ∧
    tick_loop func procs limit (fuel + 1) tick h0 reports =
      .ok { heap := r.heap, last_tick := tick,
            reports := reports ++ [⟨tick, msgs ++ [Msg.no_running], r.printed⟩] } := by
  obtain ⟨_, _, _, _, _, hret, hwarn, _⟩ := pass_ok hq hr
  have hrun : count_state PS_RUNNING h2 as = 0 := count_state_zero hnorun
  have hrdy : 0 < count_state PS_READY h2 as := by
    rw [count_state_records, List.countP_pos_iff]
    obtain ⟨d, hd, hst⟩ := hready
    exact ⟨d, hd, decide_eq_true hst⟩
  have hret1 : r.ret = true := by
    rw [hret, hrun]
    rfl
  have hwarn1 : r.warning = true := by
    rw [hwarn, hrun]
    simp only [decide_True, Bool.true_and, decide_eq_true_eq]
    exact hrdy
  refine ⟨hwarn1, hret1, ?_⟩
  rw [tick_loop_step reports hadm hpol hr, if_pos hret1, hwarn1]
  rfl

/-- Tick 0 of the run of "Round Robin" on the built-in workload: the record
of pid 0 is left ready, and the loop ends at tick 0 with the warning. -/
theorem run_ends_without_running_witness :
    insert_arrived CONFIG_PROCS 8 0 [_head] = .ok ready_heap ∧
    rr ready_heap = .ok (ready_heap, [Msg.unimplemented]) ∧
    IsQueue ready_heap [1] ∧
    run_and_print_queue CONFIG_PROCS ready_heap = .ok waited_pass ∧
    (∃ d ∈ records ready_heap [1], d.state = PS_READY) ∧
    (∀ d ∈ records ready_heap [1], d.state ≠ PS_RUNNING) ∧
    waited_pass.warning = true ∧ waited_pass.ret = true ∧
    tick_loop rr CONFIG_PROCS 8 (9 + 1) 0 [_head] [] =
      .ok { heap := waited_pass.heap, last_tick := 0,
            reports := [] ++ [⟨0, [Msg.unimplemented] ++ [Msg.no_running],
                              waited_pass.printed⟩] } :=
  ⟨rfl, rfl, by decide, rfl, by decide, by decide,
   run_ends_without_running rr CONFIG_PROCS 8 9 0 [_head] ready_heap ready_heap
     [Msg.unimplemented] [1] waited_pass [] rfl rfl (by decide) rfl (by decide) (by decide)⟩

/-- C5 fails as stated. In the run of "Round Robin" on the built-in workload
the policy call of tick 0 leaves one `PS_READY` record and no `PS_RUNNING`
record; with fuel for ten ticks the loop nevertheless returns after tick 0,
with a single report, and does not go on to tick 1. -/
theorem warning_run_continues_counterexample :
    insert_arrived CONFIG_PROCS 8 0 [_head] = .ok ready_heap ∧
    rr ready_heap = .ok (ready_heap, [Msg.unimplemented]) ∧
    count_state PS_READY ready_heap [1] = 1 ∧
    count_state PS_RUNNING ready_heap [1] = 0 ∧
    policy_run rr CONFIG_PROCS 8 10 [_head] =
      .ok { heap := waited_heap, last_tick := 0,
            reports := [⟨0, [Msg.unimplemented, Msg.no_running],
                         [⟨0, 0, 3, 1, PS_READY⟩]⟩] } ∧
    policy_run rr CONFIG_PROCS 8 10 [_head] ≠
      tick_loop rr CONFIG_PROCS 8 9 1 waited_heap
        [⟨0, [Msg.unimplemented, Msg.no_running], [⟨0, 0, 3, 1, PS_READY⟩]⟩] :=
  ⟨rfl, rfl, by decide, by decide, rfl, by
    intro he
    have h1 : policy_run rr CONFIG_PROCS 8 10 [_head] =
      .ok { heap := waited_heap, last_tick := 0,
            reports := [⟨0, [Msg.unimplemented, Msg.no_running],
                         [⟨0, 0, 3, 1, PS_READY⟩]⟩] } := rfl
    have h2 : tick_loop rr CONFIG_PROCS 8 9 1 waited_heap
        [⟨0, [Msg.unimplemented, Msg.no_running], [⟨0, 0, 3, 1, PS_READY⟩]⟩] =
      .ok { heap :=
              [ { _head with next := 1, prev := 1 },
                { pid := 0, cycles_done := 0, cycles_waited := 2, cycles_todo := 3,
                  next := 0, prev := 0, state := PS_READY } ],
            last_tick := 1,
            reports := [⟨0, [Msg.unimplemented, Msg.no_running], [⟨0, 0, 3, 1, PS_READY⟩]⟩,
                        ⟨1, [Msg.unimplemented, Msg.no_running],
                         [⟨0, 0, 3, 2, PS_READY⟩]⟩] } := rfl
    rw [h1, h2] at he
    injection he with he
    injection he with _ he
    cases he⟩


/-! ## Runs of the fallback policy -/

/-- The inner loop of `main` on a well-formed queue: every job among `is`
whose arrival time is `tick` is enqueued, in the order of `is`. -/
theorem insert_arrived_from_queue {procs : List Job} {limit tick : Nat} :
    ∀ (is : List Nat) (h : Heap) (as : List Nat), IsQueue h as →
    (∀ i ∈ is, i < procs.length ∧ i < UINT_MOD) → h.length + is.length ≤ limit →
    ∃ h1 as1, insert_arrived_from procs limit tick is h = .ok h1 ∧
      IsQueue h1 (as ++ as1) ∧
      records h1 (as ++ as1) =
        records h as ++ (is.filter (arrives procs tick)).filterMap (fresh procs) ∧
      (h1[HEAD]?).map process.data = (h[HEAD]?).map process.data
  | [], h, as, hq, _, _ => by
    refine ⟨h, [], rfl, ?_, ?_, rfl⟩
    · rw [List.append_nil]
      exact hq
    · simp
  | i :: is, h, as, hq, hall, hlim => by
    obtain ⟨hi, hiM⟩ := hall i (List.mem_cons_self _ _)
    have hall1 : ∀ k ∈ is, k < procs.length ∧ k < UINT_MOD :=
      fun k hk => hall k (List.mem_cons_of_mem _ hk)
    have hjob : procs[i]? = some procs[i] := List.getElem?_eq_getElem hi
    rw [List.length_cons] at hlim
    rw [insert_arrived_from, (lookup_eq_ok_iff _ _ _).2 hjob, bind_ok_eq]
    by_cases hat : procs[i].atime = tick
    · have harr : arrives procs tick i = true := by
        simp [arrives, hjob, hat]
      rw [if_pos hat, Nat.mod_eq_of_lt hiM]
      obtain ⟨h1, he, hlen, hq1, _, _⟩ :=
        @enqueue_queue procs limit h as i procs[i] hq (by omega) hjob
      obtain ⟨job, hjob1, _, _, hrec, hhead⟩ := enqueue_records hq he
      rw [hjob] at hjob1
      cases hjob1
      rw [he, bind_ok_eq]
      obtain ⟨h2, as2, he2, hq2, hrec2, hhead2⟩ :=
        @insert_arrived_from_queue procs limit tick is h1 (as ++ [h.length]) hq1 hall1
          (by omega)
      refine ⟨h2, h.length :: as2, he2, ?_, ?_, hhead2.trans hhead⟩
      · rw [List.append_cons]
        exact hq2
      · have hfresh : fresh procs i = some ⟨i, 0, 0, procs[i].rtime, PS_READY⟩ := by
          simp [fresh, hjob]
        rw [List.append_cons, hrec2, hrec, List.filter_cons_of_pos harr,
          List.filterMap_cons_some hfresh, List.append_assoc]
        rfl
    · have harr : ¬ arrives procs tick i = true := by
        simp [arrives, hjob, hat]
      rw [if_neg hat]
      obtain ⟨h2, as2, he2, hq2, hrec2, hhead2⟩ :=
        @insert_arrived_from_queue procs limit tick is h as hq hall1 (by omega)
      refine ⟨h2, as2, he2, hq2, ?_, hhead2⟩
      rw [hrec2, List.filter_cons_of_neg harr]


theorem records_cons_some {h : Heap} {b : Nat} {c : process} (bs : List Nat)
    (hc : h[b]? = some c) : records h (b :: bs) = c.data :: records h bs := by
  unfold records
  rw [cells_cons_some bs hc, List.map_cons]

theorem records_map_of_pointwise {f : Data → Data} {h h1 : Heap} : ∀ (as : List Nat),
    (∀ a ∈ as, ∃ c c1, h[a]? = some c ∧ h1[a]? = some c1 ∧ c1.data = f c.data) →
    records h1 as = (records h as).map f
  | [], _ => rfl
  | a :: as, hall => by
    obtain ⟨c, c1, hc, hc1, he⟩ := hall a (List.mem_cons_self _ _)
    rw [records_cons_some as hc, records_cons_some as hc1, List.map_cons, he,
      records_map_of_pointwise as (fun b hb => hall b (List.mem_cons_of_mem _ hb))]

theorem printed_rows (h : Heap) (as : List Nat) :
    (cells h as).map row_of = (records h as).map Data.row := by
  unfold records
  rw [List.map_map]
  rfl

theorem simulate_tick_ready_ok (procs : List Job) {c : process}
    (hst : c.state = PS_READY) (hpos : 0 < c.cycles_todo) :
    simulate_tick procs c =
      .ok { c with cycles_waited := (c.cycles_waited + 1) % UINT_MOD } := by
  unfold simulate_tick
  rw [hst]
  simp only
  rw [(cassert_eq_ok_iff _).2 (decide_eq_true hpos), bind_ok_eq]
  rfl

/-- The execution pass on a queue whose records are all `PS_READY` with
`cycles_todo > 0`: it returns true, warns unless the queue is empty, and
every record has waited one more tick. -/
theorem pass_all_ready {procs : List Job} {h : Heap} {as : List Nat}
    (hq : IsQueue h as) (hhead : (h[HEAD]?).map process.data = some _head.data)
    (hall : ∀ d ∈ records h as, d.state = PS_READY ∧ 0 < d.cycles_todo) :
    ∃ r, run_and_print_queue procs h = .ok r ∧ r.ret = true ∧
      r.warning = decide (records h as ≠ []) ∧ IsQueue r.heap as ∧
      records r.heap as = (records h as).map Data.wait ∧
      r.printed = (records r.heap as).map Data.row ∧
      (r.heap[HEAD]?).map process.data = some _head.data := by
  have hrun : count_state PS_RUNNING h as = 0 :=
    count_state_zero (fun d hd hst => by rw [(hall d hd).1] at hst; cases hst)
  have hcells : ∀ a ∈ as, ∀ c, h[a]? = some c → c.state = PS_READY ∧ 0 < c.cycles_todo :=
    fun a ha c hc => hall c.data (mem_records.2 ⟨a, ha, c, hc, rfl⟩)
  obtain ⟨hd, hhd⟩ : ∃ hd, h[HEAD]? = some hd := by
    cases hc : h[HEAD]? with
    | none => rw [hc] at hhead; cases hhead
    | some hd => exact ⟨hd, rfl⟩
  have hdead : hd.state = PS_DEAD := by
    rw [hhd] at hhead
    exact congrArg Data.state (Option.some.inj hhead)
  obtain ⟨r, hr⟩ := @pass_total procs h as hd hq hhd hdead
    (fun a ha c hc => ⟨_, simulate_tick_ready_ok procs (hcells a ha c hc).1 (hcells a ha c hc).2⟩)
    (by rw [hrun]; exact Nat.zero_le 1)
  obtain ⟨_, _, _, p3, _, hret, hwarn, hprint⟩ := pass_ok hq hr
  refine ⟨r, hr, ?_, ?_, pass_queue hq hr, ?_, ?_, ?_⟩
  · rw [hret, hrun]
    rfl
  · rw [hwarn, hrun, count_state_records]
    have hlen : (records h as).countP (fun d => decide (d.state = PS_READY)) =
        (records h as).length := by
      rw [List.countP_eq_length]
      intro d hd
      exact decide_eq_true (hall d hd).1
    rw [hlen]
    cases hrec : records h as with
    | nil => rfl
    | cons d ds => simp
  · apply records_map_of_pointwise
    intro a ha
    obtain ⟨c, c1, hc, hsim, hc1⟩ := p3 a ha
    refine ⟨c, c1, hc, hc1, ?_⟩
    rw [simulate_tick_ready_ok procs (hcells a ha c hc).1 (hcells a ha c hc).2] at hsim
    cases hsim
    rfl
  · rw [hprint, printed_rows]
  · rw [pass_head hq hr]
    exact hhead

theorem mem_arrivals {procs : List Job} {tick i : Nat} :
    i ∈ arrivals procs tick ↔ ∃ j, procs[i]? = some j ∧ j.atime = tick := by
  unfold arrivals arrives
  rw [List.mem_filter, List.mem_range]
  constructor
  · rintro ⟨hi, hany⟩
    rw [List.getElem?_eq_getElem hi] at hany
    simp only [Option.any_some, decide_eq_true_eq] at hany
    exact ⟨procs[i], List.getElem?_eq_getElem hi, hany⟩
  · rintro ⟨j, hj, hat⟩
    obtain ⟨hi, _⟩ := List.getElem?_eq_some.1 hj
    refine ⟨hi, ?_⟩
    rw [hj]
    simp [hat]

theorem mem_fresh_arrivals {procs : List Job} {tick : Nat} {d : Data}
    (hd : d ∈ (arrivals procs tick).filterMap (fresh procs)) :
    ∃ j, procs[d.pid]? = some j ∧ j.atime = tick ∧
      d = { pid := d.pid, cycles_done := 0, cycles_waited := 0, cycles_todo := j.rtime,
            state := PS_READY } := by
  obtain ⟨i, hi, hf⟩ := List.mem_filterMap.1 hd
  obtain ⟨j, hj, hat⟩ := mem_arrivals.1 hi
  unfold fresh at hf
  rw [hj] at hf
  cases hf
  exact ⟨j, hj, hat, rfl⟩

/-- A run of the fallback policy from a queue that holds only the head: the
jobs with arrival time 0 are enqueued in table order, the pass of tick 0 makes
each of them wait, and the loop ends at tick 0. -/
theorem empty_run {procs : List Job} {limit : Nat} (fuel : Nat) (junk : List process)
    (hlen : procs.length ≤ UINT_MOD) (hlim : junk.length + 1 + procs.length ≤ limit)
    (hpos : ∀ j ∈ procs, j.atime = 0 → 0 < j.rtime) :
    ∃ res as, policy_run empty procs limit (fuel + 1) (_head :: junk) = .ok res ∧
      res.last_tick = 0 ∧ IsQueue res.heap as ∧
      records res.heap as = ((arrivals procs 0).filterMap (fresh procs)).map Data.wait ∧
      res.reports =
        [⟨0, [Msg.unimplemented] ++
              (if (arrivals procs 0).filterMap (fresh procs) ≠ [] then [Msg.no_running] else []),
          (records res.heap as).map Data.row⟩] := by
  obtain ⟨h1, as, hadm, hq1, hrec1, hhead1⟩ :=
    @insert_arrived_from_queue procs limit 0 (List.range procs.length) (_head :: junk) []
      (start_queue junk)
      (fun i hi => by
        have := List.mem_range.1 hi
        exact ⟨this, by omega⟩)
      (by rw [List.length_range, List.length_cons]; omega)
  rw [List.nil_append] at hq1 hrec1
  have hrec0 : records (_head :: junk) [] = [] := rfl
  rw [hrec0, List.nil_append] at hrec1
  change records h1 as = (arrivals procs 0).filterMap (fresh procs) at hrec1
  have hall : ∀ d ∈ records h1 as, d.state = PS_READY ∧ 0 < d.cycles_todo := by
    intro d hd
    rw [hrec1] at hd
    obtain ⟨j, hj, hat, he⟩ := mem_fresh_arrivals hd
    obtain ⟨hi, hji⟩ := List.getElem?_eq_some.1 hj
    have hjm : j ∈ procs := by
      rw [← hji]
      exact List.getElem_mem hi
    rw [he]
    exact ⟨rfl, hpos j hjm hat⟩
  have hhead : (h1[HEAD]?).map process.data = some _head.data := by
    rw [hhead1]
    simp [HEAD]
  obtain ⟨r, hr, hret, hwarn, hq2, hrec2, hprint, _⟩ := @pass_all_ready procs h1 as hq1 hhead hall
  have hpol : empty h1 = .ok (h1, [Msg.unimplemented]) := rfl
  refine ⟨⟨r.heap, 0, [⟨0, [Msg.unimplemented] ++ (if r.warning then [Msg.no_running] else []),
    r.printed⟩]⟩, as, ?_, rfl, hq2, ?_, ?_⟩
  · unfold policy_run
    rw [tick_loop_step [] hadm hpol hr, if_pos hret]
    rfl
  · rw [hrec2, hrec1]
  · simp only [hwarn, hrec1, hprint, decide_eq_true_eq]


theorem pids_fresh {procs : List Job} : ∀ (is : List Nat), (∀ i ∈ is, i < procs.length) →
    (((is.filterMap (fresh procs)).map Data.wait).map Data.pid) = is
  | [], _ => rfl
  | i :: is, hall => by
    have hi : i < procs.length := hall i (List.mem_cons_self _ _)
    have hfresh : fresh procs i = some ⟨i, 0, 0, procs[i].rtime, PS_READY⟩ := by
      simp [fresh, List.getElem?_eq_getElem hi]
    rw [List.filterMap_cons_some hfresh, List.map_cons, List.map_cons,
      pids_fresh is (fun k hk => hall k (List.mem_cons_of_mem _ hk))]
    rfl

theorem arrivals_lt {procs : List Job} {tick : Nat} :
    ∀ i ∈ arrivals procs tick, i < procs.length := by
  intro i hi
  unfold arrivals at hi
  exact List.mem_range.1 (List.mem_filter.1 hi).1

theorem arrivals_sorted (procs : List Job) (tick : Nat) :
    List.Sorted (fun a b => a < b) (arrivals procs tick) :=
  List.Sorted.filter _ (List.sorted_lt_range _)

/-- A filter of `range n` by a predicate closed under going down is an
initial segment. -/
theorem filter_range_initial (p : Nat → Bool) : ∀ (n : Nat),
    (∀ i j, i < j → j < n → p j = true → p i = true) →
    (List.range n).filter p = List.range ((List.range n).filter p).length
  | 0, _ => rfl
  | n + 1, hdown => by
    rw [List.range_succ, List.filter_append]
    by_cases hn : p n = true
    · have hall : (List.range n).filter p = List.range n := by
        rw [List.filter_eq_self]
        intro i hi
        exact hdown i n (List.mem_range.1 hi) (Nat.lt_succ_self n) hn
      rw [hall, List.filter_cons_of_pos hn, List.filter_nil, List.length_append,
        List.length_range, List.length_singleton, List.range_succ]
    · rw [List.filter_cons_of_neg hn, List.filter_nil, List.append_nil]
      exact filter_range_initial p n
        (fun i j hij hj hp => hdown i j hij (Nat.lt_succ_of_lt hj) hp)

theorem arrivals_initial {procs : List Job}
    (hsorted : List.Sorted (fun a b => a ≤ b) (procs.map Job.atime)) :
    arrivals procs 0 = List.range (arrivals procs 0).length := by
  unfold arrivals
  apply filter_range_initial
  intro i j hij hj hp
  have hi : i < procs.length := Nat.lt_trans hij hj
  unfold arrives at hp ⊢
  rw [List.getElem?_eq_getElem hj] at hp
  rw [List.getElem?_eq_getElem hi]
  simp only [Option.any_some, decide_eq_true_eq] at hp ⊢
  have hi1 : i < (procs.map Job.atime).length := by rw [List.length_map]; exact hi
  have hj1 : j < (procs.map Job.atime).length := by rw [List.length_map]; exact hj
  have hle : (procs.map Job.atime).get ⟨i, hi1⟩ ≤ (procs.map Job.atime).get ⟨j, hj1⟩ :=
    List.Sorted.rel_get_of_lt hsorted hij
  simp only [List.get_eq_getElem, List.getElem_map] at hle
  rw [hp] at hle
  exact Nat.le_zero.1 hle


/-- C8, as the code has it. For every workload table (at most `UINT_MOD`
entries, jobs arriving at tick 0 with a run time above 0, memory for one cell
per job) and each of the five policies as linked here, a run returns after
tick 0: the records of the queue are those of the jobs with arrival time 0,
one per job and in table order; the jobs with a later arrival time yield no
record. -/
theorem linked_run_admits_tick0 (procs : List Job) (limit fuel : Nat) (junk : List process)
    (name : String) (func : Policy) (hmem : (name, func) ∈ algos)
    (hlen : procs.length ≤ UINT_MOD) (hlim : junk.length + 1 + procs.length ≤ limit)
    (hpos : ∀ j ∈ procs, j.atime = 0 → 0 < j.rtime) :
    ∃ res as, policy_run func procs limit (fuel + 1) (_head :: junk) = .ok res ∧
      res.last_tick = 0 ∧ IsQueue res.heap as ∧
      (records res.heap as).map Data.pid = arrivals procs 0 ∧
      (arrivals procs 0).Nodup ∧
      ∀ i, i ∈ arrivals procs 0 ↔ ∃ j, procs[i]? = some j ∧ j.atime = 0 := by
  rw [algos_empty hmem]
  obtain ⟨res, as, hrun, hlast, hq, hrec, _⟩ := @empty_run procs limit fuel junk hlen hlim hpos
  refine ⟨res, as, hrun, hlast, hq, ?_, (arrivals_sorted procs 0).nodup, fun i => mem_arrivals⟩
  rw [hrec]
  exact pids_fresh _ arrivals_lt

/-- The run of "Round Robin" on the built-in workload: only the job with pid
0 has a record. -/
theorem linked_run_admits_tick0_witness :
    ("Round Robin", rr) ∈ algos ∧ CONFIG_PROCS.length ≤ UINT_MOD ∧
    ([] : List process).length + 1 + CONFIG_PROCS.length ≤ 8 ∧
    (∀ j ∈ CONFIG_PROCS, j.atime = 0 → 0 < j.rtime) ∧
    ∃ res as, policy_run rr CONFIG_PROCS 8 (9 + 1) (_head :: []) = .ok res ∧
      res.last_tick = 0 ∧ IsQueue res.heap as ∧
      (records res.heap as).map Data.pid = arrivals CONFIG_PROCS 0 ∧
      (arrivals CONFIG_PROCS 0).Nodup ∧
      ∀ i, i ∈ arrivals CONFIG_PROCS 0 ↔ ∃ j, CONFIG_PROCS[i]? = some j ∧ j.atime = 0 :=
  ⟨List.mem_cons_self _ _, by decide, by decide, by decide,
   linked_run_admits_tick0 CONFIG_PROCS 8 9 [] "Round Robin" rr (List.mem_cons_self _ _)
     (by decide) (by decide) (by decide)⟩

/-- C8 fails as stated. The run of "Round Robin" on the built-in workload,
with fuel for the ticks 0 to 9, ends after tick 0 with the single record of
pid 0: the jobs 1, 2 and 3 (arrival times 2, 4 and 6) yield no record. -/
theorem every_job_admitted_counterexample :
    policy_run rr CONFIG_PROCS 8 10 [_head] = .ok builtin_result ∧
    IsQueue builtin_result.heap [1] ∧
    (records builtin_result.heap [1]).map Data.pid = [0] ∧
    CONFIG_PROCS.map Job.atime = [0, 2, 4, 6] :=
  ⟨rfl, by decide, by decide, by decide⟩

/-- C9, as the code has it. For every workload table (as in C8) and each of
the five policies as linked here, the pid of every record in the queue of a
run is the table index of its job, the queue is in strictly ascending pid
order, and when the table is sorted by arrival time the k-th record has
pid k. -/
theorem linked_run_pids (procs : List Job) (limit fuel : Nat) (junk : List process)
    (name : String) (func : Policy) (hmem : (name, func) ∈ algos)
    (hlen : procs.length ≤ UINT_MOD) (hlim : junk.length + 1 + procs.length ≤ limit)
    (hpos : ∀ j ∈ procs, j.atime = 0 → 0 < j.rtime) :
    ∃ res as, policy_run func procs limit (fuel + 1) (_head :: junk) = .ok res ∧
      IsQueue res.heap as ∧
      (∀ d ∈ records res.heap as, ∃ j, procs[d.pid]? = some j ∧ j.atime = 0 ∧
        d.cycles_todo = j.rtime) ∧
      List.Sorted (fun a b => a < b) ((records res.heap as).map Data.pid) ∧
      (List.Sorted (fun a b => a ≤ b) (procs.map Job.atime) →
        (records res.heap as).map Data.pid = List.range (records res.heap as).length) := by
  rw [algos_empty hmem]
  obtain ⟨res, as, hrun, _, hq, hrec, _⟩ := @empty_run procs limit fuel junk hlen hlim hpos
  have hpids : (records res.heap as).map Data.pid = arrivals procs 0 := by
    rw [hrec]
    exact pids_fresh _ arrivals_lt
  refine ⟨res, as, hrun, hq, ?_, ?_, ?_⟩
  · intro d hd
    rw [hrec] at hd
    obtain ⟨d0, hd0, he⟩ := List.mem_map.1 hd
    obtain ⟨j, hj, hat, hd1⟩ := mem_fresh_arrivals hd0
    rw [← he, hd1]
    exact ⟨j, hj, hat, rfl⟩
  · rw [hpids]
    exact arrivals_sorted procs 0
  · intro hsorted
    have hl : (records res.heap as).length = (arrivals procs 0).length := by
      rw [← hpids, List.length_map]
    rw [hl, hpids]
    exact arrivals_initial hsorted

/-- The run of "Round Robin" on the built-in workload, which is sorted by
arrival time. -/
theorem linked_run_pids_witness :
    ("Round Robin", rr) ∈ algos ∧ CONFIG_PROCS.length ≤ UINT_MOD ∧
    ([] : List process).length + 1 + CONFIG_PROCS.length ≤ 8 ∧
    (∀ j ∈ CONFIG_PROCS, j.atime = 0 → 0 < j.rtime) ∧
    ∃ res as, policy_run rr CONFIG_PROCS 8 (9 + 1) (_head :: []) = .ok res ∧
      IsQueue res.heap as ∧
      (∀ d ∈ records res.heap as, ∃ j, CONFIG_PROCS[d.pid]? = some j ∧ j.atime = 0 ∧
        d.cycles_todo = j.rtime) ∧
      List.Sorted (fun a b => a < b) ((records res.heap as).map Data.pid) ∧
      (List.Sorted (fun a b => a ≤ b) (CONFIG_PROCS.map Job.atime) →
        (records res.heap as).map Data.pid = List.range (records res.heap as).length) :=
  ⟨List.mem_cons_self _ _, by decide, by decide, by decide,
   linked_run_pids CONFIG_PROCS 8 9 [] "Round Robin" rr (List.mem_cons_self _ _)
     (by decide) (by decide) (by decide)⟩

/-- C9 fails as stated. On the table `swapped_procs`, whose job with index 1
arrives first, the run of "Round Robin" admits that job first: the record
admitted first (and the only one) has pid 1, not pid 0. -/
theorem pid_is_admission_rank_counterexample :
    policy_run rr swapped_procs 8 10 [_head] =
      .ok { heap := swapped_heap, last_tick := 0,
            reports := [⟨0, [Msg.unimplemented, Msg.no_running],
                         [⟨1, 0, 3, 1, PS_READY⟩]⟩] } ∧
    IsQueue swapped_heap [1] ∧
    (records swapped_heap [1]).map Data.pid = [1] ∧
    (records swapped_heap [1]).map Data.pid ≠ List.range 1 :=
  ⟨rfl, by decide, by decide, by decide⟩


/-! ## The built-in workload -/

theorem builtin_tick0 (limit : Nat) (hlim : 2 ≤ limit) :
    insert_arrived CONFIG_PROCS limit 0 [_head] = .ok ready_heap := by
  have he : enqueue CONFIG_PROCS limit [_head] 0 = .ok ready_heap :=
    @enqueue_eq CONFIG_PROCS limit [_head] 0 ⟨0, 3⟩ _head _head
      (by rw [List.length_singleton]; omega) rfl rfl rfl
  have hrange : List.range CONFIG_PROCS.length = [0, 1, 2, 3] := by decide
  unfold insert_arrived
  rw [hrange]
  have hstep : insert_arrived_from CONFIG_PROCS limit 0 [0, 1, 2, 3] [_head] =
      (enqueue CONFIG_PROCS limit [_head] (0 % UINT_MOD) >>= fun h1 =>
        insert_arrived_from CONFIG_PROCS limit 0 [1, 2, 3] h1) := rfl
  rw [hstep]
  have hmod : 0 % UINT_MOD = 0 := rfl
  rw [hmod, he, bind_ok_eq]
  rfl

/-- C10, as the code has it. The "First Come First Serve" run of the driver as
linked here (`fcfs` is the fallback) on the built-in workload, with memory for
two cells or more and fuel for one tick or more, returns after tick 0: the
job with pid 0 is in the queue, shown ready with one tick waited, and the
reports of the ticks 0 to 15 show no running pid. -/
theorem fcfs_builtin_run (limit fuel : Nat) (hlim : 2 ≤ limit) :
    policy_run fcfs CONFIG_PROCS limit (fuel + 1) [_head] = .ok builtin_result ∧
    builtin_result.reports = [⟨0, [Msg.unimplemented, Msg.no_running],
                               [⟨0, 0, 3, 1, PS_READY⟩]⟩] ∧
    records builtin_result.heap [1] = [⟨0, 0, 1, 3, PS_READY⟩] ∧
    (List.range 16).map (running_at builtin_result) = List.replicate 16 none := by
  refine ⟨?_, rfl, by decide, by decide⟩
  have hpol : fcfs ready_heap = .ok (ready_heap, [Msg.unimplemented]) := rfl
  have hr : run_and_print_queue CONFIG_PROCS ready_heap =
      .ok ⟨waited_heap, [⟨0, 0, 3, 1, PS_READY⟩], true, true⟩ := rfl
  unfold policy_run
  rw [tick_loop_step [] (builtin_tick0 limit hlim) hpol hr]
  rfl

/-- The run with memory for eight cells and fuel for the ticks 0 to 15. -/
theorem fcfs_builtin_run_witness :
    2 ≤ 8 ∧
    policy_run fcfs CONFIG_PROCS 8 (15 + 1) [_head] = .ok builtin_result ∧
    builtin_result.reports = [⟨0, [Msg.unimplemented, Msg.no_running],
                               [⟨0, 0, 3, 1, PS_READY⟩]⟩] ∧
    records builtin_result.heap [1] = [⟨0, 0, 1, 3, PS_READY⟩] ∧
    (List.range 16).map (running_at builtin_result) = List.replicate 16 none :=
  ⟨by decide, fcfs_builtin_run 8 15 (by decide)⟩

/-- C10 fails as stated. The "First Come First Serve" run on the built-in
workload, with fuel for the ticks 0 to 15, ends after tick 0; its reports
show no running pid at any of the ticks 0 to 15, in particular not pid 0 at
tick 0, so they differ from the schedule stated. -/
theorem fcfs_schedule_counterexample :
    policy_run fcfs CONFIG_PROCS 8 16 [_head] = .ok builtin_result ∧
    running_at builtin_result 0 = none ∧
    (List.range 16).map (running_at builtin_result) ≠ stated_fcfs_schedule :=
  ⟨rfl, by decide, by decide⟩

/-! ## The execution pass: what it leaves alone -/

theorem records_map_congr {β : Type} (g : Data → β) {h h1 : Heap} : ∀ (as : List Nat),
    (∀ a ∈ as, ∃ c c1, h[a]? = some c ∧ h1[a]? = some c1 ∧ g c1.data = g c.data) →
    (records h1 as).map g = (records h as).map g
  | [], _ => rfl
  | a :: as, hall => by
    obtain ⟨c, c1, hc, hc1, he⟩ := hall a (List.mem_cons_self _ _)
    rw [records_cons_some as hc, records_cons_some as hc1, List.map_cons, List.map_cons, he,
      records_map_congr g as (fun b hb => hall b (List.mem_cons_of_mem _ hb))]

/-- C14. On a well-formed queue on which the execution pass completes, the
queue after the pass has the same cells in the same order, every record has
the pid and the state it had before, and the number of records in each state
(`PS_RUNNING`, `PS_READY`, `PS_DEAD`) is unchanged. -/
theorem pass_keeps_states (procs : List Job) (h : Heap) (as : List Nat) (r : PassResult)
    (hq : IsQueue h as) (hr : run_and_print_queue procs h = .ok r) :
    IsQueue r.heap as ∧
    (records r.heap as).map (fun d => (d.pid, d.state)) =
      (records h as).map (fun d => (d.pid, d.state)) ∧
    ∀ st, count_state st r.heap as = count_state st h as := by
  obtain ⟨_, _, _, p3, _⟩ := pass_ok hq hr
  refine ⟨pass_queue hq hr, ?_, fun st => pass_count_state hq hr st⟩
  apply records_map_congr
  intro a ha
  obtain ⟨c, c1, hc, hsim, hc1⟩ := p3 a ha
  have hfr := simulate_tick_frame hsim
  refine ⟨c, c1, hc, hc1, ?_⟩
  show (c1.pid, c1.state) = (c.pid, c.state)
  rw [hfr.2.2.1, hfr.2.2.2]

/-- The pass on `demo_heap` keeps the pids 0, 1, 2 and the states running,
ready, dead. -/
theorem pass_keeps_states_witness :
    IsQueue demo_heap [1, 2, 3] ∧
    run_and_print_queue CONFIG_PROCS demo_heap = .ok demo_pass ∧
    IsQueue demo_pass.heap [1, 2, 3] ∧
    (records demo_pass.heap [1, 2, 3]).map (fun d => (d.pid, d.state)) =
      (records demo_heap [1, 2, 3]).map (fun d => (d.pid, d.state)) ∧
    ∀ st, count_state st demo_pass.heap [1, 2, 3] = count_state st demo_heap [1, 2, 3] :=
  ⟨by decide, rfl,
   pass_keeps_states CONFIG_PROCS demo_heap [1, 2, 3] demo_pass (by decide) rfl⟩

/-! ## Runs of the policies as linked -/

theorem left_waiting_eq (procs : List Job) (is : List Nat) :
    (is.filterMap (fresh procs)).map Data.wait = is.filterMap (left_waiting procs) := by
  rw [List.map_filterMap]
  apply List.filterMap_congr
  intro i _
  unfold fresh left_waiting
  rw [Option.map_map]
  rfl

/-- C15. On a well-formed queue the execution pass, when it completes,
returns true exactly when no record is `PS_RUNNING`. Hence for every workload
table (at most `UINT_MOD` entries, memory for one cell per job) whose jobs
arriving at tick 0 have a run time above 0, and each of the five policies as
linked here, a run simulates tick 0 only: it returns with `last_tick = 0` and
one report, and the queue holds exactly the jobs with arrival time 0, in
table order, each `PS_READY` with `cycles_done = 0`, `cycles_waited = 1` and
`cycles_todo` its run time. -/
theorem linked_run_one_tick (procs : List Job) (limit fuel : Nat) (junk : List process)
    (name : String) (func : Policy) (hmem : (name, func) ∈ algos)
    (hlen : procs.length ≤ UINT_MOD) (hlim : junk.length + 1 + procs.length ≤ limit)
    (hpos : ∀ j ∈ procs, j.atime = 0 → 0 < j.rtime) :
    (∀ (h : Heap) (as : List Nat) (r : PassResult), IsQueue h as →
        run_and_print_queue procs h = .ok r →
        (r.ret = true ↔ count_state PS_RUNNING h as = 0)) ∧
    ∃ res as, policy_run func procs limit (fuel + 1) (_head :: junk) = .ok res ∧
      res.last_tick = 0 ∧ res.reports.length = 1 ∧ IsQueue res.heap as ∧
      records res.heap as = (arrivals procs 0).filterMap (left_waiting procs) := by
  constructor
  · intro h as r hq hr
    obtain ⟨_, _, _, _, _, hret, _⟩ := pass_ok hq hr
    rw [hret, decide_eq_true_eq]
  · rw [algos_empty hmem]
    obtain ⟨res, as, hrun, hlast, hq, hrec, hrep⟩ :=
      @empty_run procs limit fuel junk hlen hlim hpos
    refine ⟨res, as, hrun, hlast, ?_, hq, ?_⟩
    · rw [hrep]
      rfl
    · rw [hrec, left_waiting_eq]

/-- The run of "Highest Response Ration Next" on the built-in workload. -/
theorem linked_run_one_tick_witness :
    ("Highest Response Ration Next", hrrn) ∈ algos ∧ CONFIG_PROCS.length ≤ UINT_MOD ∧
    ([] : List process).length + 1 + CONFIG_PROCS.length ≤ 8 ∧
    (∀ j ∈ CONFIG_PROCS, j.atime = 0 → 0 < j.rtime) ∧
    (∀ (h : Heap) (as : List Nat) (r : PassResult), IsQueue h as →
        run_and_print_queue CONFIG_PROCS h = .ok r →
        (r.ret = true ↔ count_state PS_RUNNING h as = 0)) ∧
    ∃ res as, policy_run hrrn CONFIG_PROCS 8 (9 + 1) (_head :: []) = .ok res ∧
      res.last_tick = 0 ∧ res.reports.length = 1 ∧ IsQueue res.heap as ∧
      records res.heap as = (arrivals CONFIG_PROCS 0).filterMap (left_waiting CONFIG_PROCS) :=
  have hmem : ("Highest Response Ration Next", hrrn) ∈ algos := by
    simp [algos]
  ⟨hmem, by decide, by decide, by decide,
   linked_run_one_tick CONFIG_PROCS 8 9 [] "Highest Response Ration Next" hrrn hmem
     (by decide) (by decide) (by decide)⟩

/-! ## The execution pass: when it completes -/

theorem simulate_tick_running_ok {procs : List Job} {c : process} {job : Job}
    (hst : c.state = PS_RUNNING) (hjob : procs[c.pid]? = some job)
    (hsum : (c.cycles_done + c.cycles_todo) % UINT_MOD ≤ job.rtime)
    (hpos : 0 < c.cycles_todo) : ∃ c1, simulate_tick procs c = .ok c1 := by
  unfold simulate_tick
  rw [hst]
  simp only
  rw [(lookup_eq_ok_iff _ _ _).2 hjob, bind_ok_eq,
    (cassert_eq_ok_iff _).2 (decide_eq_true hsum), bind_ok_eq,
    (cassert_eq_ok_iff _).2 (decide_eq_true hpos), bind_ok_eq]
  exact ⟨_, rfl⟩

theorem simulate_tick_dead_ok {procs : List Job} {c : process} {job : Job}
    (hst : c.state = PS_DEAD) (hjob : procs[c.pid]? = some job)
    (hzero : c.cycles_todo = 0) (hdone : c.cycles_done = job.rtime) :
    ∃ c1, simulate_tick procs c = .ok c1 := by
  unfold simulate_tick
  rw [hst]
  simp only
  rw [(cassert_eq_ok_iff _).2 (decide_eq_true hzero), bind_ok_eq,
    (lookup_eq_ok_iff _ _ _).2 hjob, bind_ok_eq,
    (cassert_eq_ok_iff _).2 (decide_eq_true hdone), bind_ok_eq]
  exact ⟨_, rfl⟩

/-- C16. On a well-formed queue the execution pass completes if and only if
the dummy head is `PS_DEAD`, every `PS_RUNNING` record has `cycles_todo > 0`
and `cycles_done + cycles_todo` (in unsigned arithmetic) at most the run time
of its job, every `PS_READY` record has `cycles_todo > 0`, every `PS_DEAD`
record has `cycles_todo = 0` and `cycles_done` equal to the run time of its
job, and at most one record is `PS_RUNNING`. -/
theorem pass_completes_iff (procs : List Job) (h : Heap) (as : List Nat)
    (hq : IsQueue h as) :
    (∃ r, run_and_print_queue procs h = .ok r) ↔
      ((∃ hd, h[HEAD]? = some hd ∧ hd.state = PS_DEAD) ∧
       (∀ d ∈ records h as, d.state = PS_RUNNING →
          0 < d.cycles_todo ∧ ∃ job, procs[d.pid]? = some job ∧
            (d.cycles_done + d.cycles_todo) % UINT_MOD ≤ job.rtime) ∧
       (∀ d ∈ records h as, d.state = PS_READY → 0 < d.cycles_todo) ∧
       (∀ d ∈ records h as, d.state = PS_DEAD →
          d.cycles_todo = 0 ∧ ∃ job, procs[d.pid]? = some job ∧
            d.cycles_done = job.rtime) ∧
       count_state PS_RUNNING h as ≤ 1) := by
  constructor
  · rintro ⟨r, hr⟩
    obtain ⟨hhead, _, _, p3, hone, _⟩ := pass_ok hq hr
    have hcell : ∀ d ∈ records h as, ∃ c c1, c.data = d ∧ simulate_tick procs c = .ok c1 := by
      intro d hd
      obtain ⟨a, ha, c, hc, hcd⟩ := mem_records.1 hd
      obtain ⟨c2, c1, hc2, hsim, _⟩ := p3 a ha
      rw [hc] at hc2
      cases hc2
      exact ⟨c, c1, hcd, hsim⟩
    refine ⟨hhead, ?_, ?_, ?_, hone⟩
    · intro d hd hst
      obtain ⟨c, c1, hcd, hsim⟩ := hcell d hd
      subst hcd
      obtain ⟨job, hjob, hsum, hpos, _⟩ := simulate_tick_running hst hsim
      exact ⟨hpos, job, hjob, hsum⟩
    · intro d hd hst
      obtain ⟨c, c1, hcd, hsim⟩ := hcell d hd
      subst hcd
      exact (simulate_tick_ready hst hsim).1
    · intro d hd hst
      obtain ⟨c, c1, hcd, hsim⟩ := hcell d hd
      subst hcd
      obtain ⟨hzero, ⟨job, hjob, hdone⟩, _⟩ := simulate_tick_dead hst hsim
      exact ⟨hzero, job, hjob, hdone⟩
  · rintro ⟨⟨hd, hhd, hdead⟩, hrun, hready, hdd, hone⟩
    apply pass_total hq hhd hdead _ hone
    intro a ha c hc
    have hmemc : c.data ∈ records h as := mem_records.2 ⟨a, ha, c, hc, rfl⟩
    cases hst : c.state
    · obtain ⟨hzero, job, hjob, hdone⟩ := hdd c.data hmemc hst
      exact simulate_tick_dead_ok hst hjob hzero hdone
    · obtain ⟨hpos, job, hjob, hsum⟩ := hrun c.data hmemc hst
      exact simulate_tick_running_ok hst hjob hsum hpos
    · exact ⟨_, simulate_tick_ready_ok procs hst (hready c.data hmemc hst)⟩

/-- The queue of `demo_heap` meets the conditions, and the pass on it
completes. -/
theorem pass_completes_iff_witness :
    IsQueue demo_heap [1, 2, 3] ∧
    ((∃ r, run_and_print_queue CONFIG_PROCS demo_heap = .ok r) ↔
      ((∃ hd, demo_heap[HEAD]? = some hd ∧ hd.state = PS_DEAD) ∧
       (∀ d ∈ records demo_heap [1, 2, 3], d.state = PS_RUNNING →
          0 < d.cycles_todo ∧ ∃ job, CONFIG_PROCS[d.pid]? = some job ∧
            (d.cycles_done + d.cycles_todo) % UINT_MOD ≤ job.rtime) ∧
       (∀ d ∈ records demo_heap [1, 2, 3], d.state = PS_READY → 0 < d.cycles_todo) ∧
       (∀ d ∈ records demo_heap [1, 2, 3], d.state = PS_DEAD →
          d.cycles_todo = 0 ∧ ∃ job, CONFIG_PROCS[d.pid]? = some job ∧
            d.cycles_done = job.rtime) ∧
       count_state PS_RUNNING demo_heap [1, 2, 3] ≤ 1)) :=
  ⟨by decide, pass_completes_iff CONFIG_PROCS demo_heap [1, 2, 3] (by decide)⟩

/-! ## The execution pass: when it aborts -/

theorem simulate_tick_valid {procs : List Job} {c : process} (hpid : c.pid < procs.length) :
    (∃ c1, simulate_tick procs c = .ok c1) ∨ simulate_tick procs c = .error .assert_failed := by
  have hjob : lookup procs c.pid = .ok procs[c.pid] :=
    (lookup_eq_ok_iff _ _ _).2 (List.getElem?_eq_getElem hpid)
  unfold simulate_tick
  cases c.state <;> simp only
  · by_cases h1 : c.cycles_todo = 0
    · rw [(cassert_eq_ok_iff _).2 (decide_eq_true h1), bind_ok_eq, hjob, bind_ok_eq]
      by_cases h2 : c.cycles_done = procs[c.pid].rtime
      · rw [(cassert_eq_ok_iff _).2 (decide_eq_true h2), bind_ok_eq]
        exact Or.inl ⟨_, rfl⟩
      · right
        simp [cassert, h2, bind_error_eq]
    · right
      simp [cassert, h1]
      rfl
  · rw [hjob, bind_ok_eq]
    by_cases h1 : (c.cycles_done + c.cycles_todo) % UINT_MOD ≤ procs[c.pid].rtime
    · rw [(cassert_eq_ok_iff _).2 (decide_eq_true h1), bind_ok_eq]
      by_cases h2 : 0 < c.cycles_todo
      · rw [(cassert_eq_ok_iff _).2 (decide_eq_true h2), bind_ok_eq]
        exact Or.inl ⟨_, rfl⟩
      · right
        simp [cassert, h2]
    · right
      simp [cassert, h1]
      rfl
  · by_cases h1 : 0 < c.cycles_todo
    · rw [(cassert_eq_ok_iff _).2 (decide_eq_true h1), bind_ok_eq]
      exact Or.inl ⟨_, rfl⟩
    · right
      simp [cassert, h1]


theorem run_loop_valid {procs : List Job} : ∀ (bs : List Nat) (fuel cur : Nat) (s : LoopState),
    NextPath s.heap cur bs → HEAD ∉ bs → bs.Nodup → bs.length < fuel →
    (∀ a ∈ bs, ∀ c, s.heap[a]? = some c → c.pid < procs.length) →
    (∃ r, run_loop procs fuel cur s = .ok r) ∨
      run_loop procs fuel cur s = .error .assert_failed
  | [], fuel, cur, s, hp, _, _, hf, _ => by
    have hcur : cur = HEAD := hp
    cases fuel with
    | zero => simp at hf
    | succ fuel =>
      rw [run_loop, if_pos hcur]
      exact Or.inl ⟨s, rfl⟩
  | b :: bs, fuel, cur, s, hp, h0, hnd, hf, hall => by
    obtain ⟨hcur, c, hc, hrest⟩ := hp
    have hb0 : b ≠ HEAD := fun e => h0 (e ▸ List.mem_cons_self _ _)
    have hbs : b ∉ bs := (List.nodup_cons.1 hnd).1
    cases fuel with
    | zero => simp at hf
    | succ fuel =>
      rw [run_loop, if_neg (hcur ▸ hb0), hcur, load_of_get hc, bind_ok_eq]
      rcases simulate_tick_valid (hall b (List.mem_cons_self _ _) c hc) with ⟨c1, hsim⟩ | hsim
      · have hfr := simulate_tick_frame hsim
        rw [hsim, bind_ok_eq, store_of_lt c1 (get_lt hc), bind_ok_eq, hfr.1]
        apply run_loop_valid bs fuel c.next _
          (nextPath_set bs c.next hbs hrest)
          (fun hm => h0 (List.mem_cons_of_mem _ hm)) (List.nodup_cons.1 hnd).2
        · simp only [List.length_cons] at hf
          omega
        · intro a ha d hd
          rw [List.getElem?_set_ne (ne_of_mem_of_not_mem ha hbs).symm] at hd
          exact hall a (List.mem_cons_of_mem _ ha) d hd
      · rw [hsim, bind_error_eq]
        exact Or.inr rfl

/-- On a well-formed queue whose pids all index the table, the execution pass
either completes or stops at a failed `assert`. -/
theorem pass_valid {procs : List Job} {h : Heap} {as : List Nat} (hq : IsQueue h as)
    (hpids : ∀ d ∈ records h as, d.pid < procs.length) :
    (∃ r, run_and_print_queue procs h = .ok r) ∨
      run_and_print_queue procs h = .error .assert_failed := by
  obtain ⟨hd, hhd, hpath⟩ := hq.nextPath
  unfold run_and_print_queue
  rw [load_of_get hhd, bind_ok_eq]
  by_cases hdead : hd.state = PS_DEAD
  · rw [(cassert_eq_ok_iff _).2 (decide_eq_true hdead), bind_ok_eq]
    rcases @run_loop_valid procs as h.length hd.next
        { heap := h, nrunning := 0, nready := 0, out := [] } hpath hq.1 hq.2.1 hq.length_lt
        (fun a ha c hc => hpids c.data (mem_records.2 ⟨a, ha, c, hc, rfl⟩))
      with ⟨s, hloop⟩ | hloop
    · rw [hloop, bind_ok_eq]
      by_cases hone : s.nrunning ≤ 1
      · rw [(cassert_eq_ok_iff _).2 (decide_eq_true hone), bind_ok_eq]
        exact Or.inl ⟨_, rfl⟩
      · right
        simp [cassert, hone]
    · rw [hloop, bind_error_eq]
      exact Or.inr rfl
  · right
    simp [cassert, hdead]
    rfl

/-- C11, as the code has it. On a well-formed queue whose pids index the
table, the execution pass stops at a failed `assert` whenever more than one
record is `PS_RUNNING`, or some `PS_RUNNING` record has
`cycles_done + cycles_todo` (in unsigned arithmetic) above the run time of
its job. -/
theorem pass_aborts (procs : List Job) (h : Heap) (as : List Nat) (hq : IsQueue h as)
    (hpids : ∀ d ∈ records h as, d.pid < procs.length)
    (hbad : 1 < count_state PS_RUNNING h as ∨
      ∃ d ∈ records h as, d.state = PS_RUNNING ∧
        ∃ job, procs[d.pid]? = some job ∧
          job.rtime < (d.cycles_done + d.cycles_todo) % UINT_MOD) :
    run_and_print_queue procs h = .error .assert_failed := by
  rcases pass_valid hq hpids with ⟨r, hr⟩ | hfail
  · exfalso
    obtain ⟨_, _, _, p3, hone, _⟩ := pass_ok hq hr
    rcases hbad with hmany | ⟨d, hd, hst, job, hjob, hlt⟩
    · omega
    · obtain ⟨a, ha, c, hc, hcd⟩ := mem_records.1 hd
      obtain ⟨c2, c1, hc2, hsim, _⟩ := p3 a ha
      rw [hc] at hc2
      cases hc2
      subst hcd
      obtain ⟨job1, hjob1, hsum, _, _⟩ := simulate_tick_running hst hsim
      have hjob2 : procs[c.pid]? = some job := hjob
      rw [hjob2] at hjob1
      cases hjob1
      have hlt1 : job.rtime < (c.cycles_done + c.cycles_todo) % UINT_MOD := hlt
      omega
  · exact hfail

/-- The pass on `two_running_heap`, which has two running records, stops at
a failed `assert`. -/
theorem pass_aborts_witness :
    IsQueue two_running_heap [1, 2] ∧
    (∀ d ∈ records two_running_heap [1, 2], d.pid < CONFIG_PROCS.length) ∧
    (1 < count_state PS_RUNNING two_running_heap [1, 2] ∨
      ∃ d ∈ records two_running_heap [1, 2], d.state = PS_RUNNING ∧
        ∃ job, CONFIG_PROCS[d.pid]? = some job ∧
          job.rtime < (d.cycles_done + d.cycles_todo) % UINT_MOD) ∧
    run_and_print_queue CONFIG_PROCS two_running_heap = .error .assert_failed :=
  ⟨by decide, by decide, Or.inl (by decide),
   pass_aborts CONFIG_PROCS two_running_heap [1, 2] (by decide) (by decide)
     (Or.inl (by decide))⟩

/-- C11 fails as stated. The running record of `short_heap` has
`cycles_done + cycles_todo = 2`, which differs from the run time 3 of its
job, and it is the only running record; the pass on it completes. -/
theorem pass_inconsistent_running_counterexample :
    IsQueue short_heap [1] ∧
    records short_heap [1] = [⟨0, 0, 0, 2, PS_RUNNING⟩] ∧
    CONFIG_PROCS[0]? = some ⟨0, 3⟩ ∧
    run_and_print_queue CONFIG_PROCS short_heap = .ok short_pass :=
  ⟨by decide, by decide, by decide, rfl⟩

/-! ## The policies as linked: what they leave alone -/

theorem changed_states_self (h : Heap) : changed_states h h = 0 := by
  unfold changed_states
  rw [List.length_eq_zero, List.filter_eq_nil_iff]
  intro p hp
  have he : p.1 = p.2 := by
    rw [List.zip_eq_zipWith] at hp
    induction h with
    | nil => simp at hp
    | cons c cs ih =>
      simp only [List.zipWith_cons_cons, List.mem_cons] at hp
      rcases hp with h1 | h1
      · rw [h1]
      · exact ih h1
  simp [he]

/-- C12. A call of any of the five policies as linked here returns, changes
the state field of at most two cells (of none, in fact) and changes no other
field of any cell: pid, counters and links are as before, so every queue is
the same cells in the same order with the same records. -/
theorem linked_policy_frame (name : String) (func : Policy) (h : Heap)
    (hmem : (name, func) ∈ algos) :
    ∃ h1 msgs, func h = .ok (h1, msgs) ∧ changed_states h h1 ≤ 2 ∧ StateOnly h h1 ∧
      ∀ as, IsQueue h as → IsQueue h1 as ∧
        (records h1 as).map
            (fun d => (d.pid, d.cycles_done, d.cycles_waited, d.cycles_todo)) =
          (records h as).map
            (fun d => (d.pid, d.cycles_done, d.cycles_waited, d.cycles_todo)) := by
  rw [algos_empty hmem]
  refine ⟨h, [Msg.unimplemented], rfl, ?_, rfl, ?_⟩
  · rw [changed_states_self]
    exact Nat.zero_le 2
  · intro as hq
    exact ⟨hq, rfl⟩

/-- The call of "Shortest Process Next" on `demo_heap`. -/
theorem linked_policy_frame_witness :
    ("Shortest Process Next", spn) ∈ algos ∧
    ∃ h1 msgs, spn demo_heap = .ok (h1, msgs) ∧ changed_states demo_heap h1 ≤ 2 ∧
      StateOnly demo_heap h1 ∧
      ∀ as, IsQueue demo_heap as → IsQueue h1 as ∧
        (records h1 as).map
            (fun d => (d.pid, d.cycles_done, d.cycles_waited, d.cycles_todo)) =
          (records demo_heap as).map
            (fun d => (d.pid, d.cycles_done, d.cycles_waited, d.cycles_todo)) :=
  have hmem : ("Shortest Process Next", spn) ∈ algos := by
    simp [algos]
  ⟨hmem, linked_policy_frame "Shortest Process Next" spn demo_heap hmem⟩

/-! ## The shape of the process list -/

theorem ring_succ {h : Heap} : ∀ (l : List Nat) (x : Nat),
    Ring h x l → ∀ n ∈ x :: l, ∃ m, linked h n m
  | [], x, hr, n, hn => by
    rw [List.mem_singleton] at hn
    rw [hn]
    exact ⟨HEAD, hr⟩
  | y :: ys, x, hr, n, hn => by
    rcases List.mem_cons.1 hn with h1 | h1
    · rw [h1]
      exact ⟨y, hr.1⟩
    · exact ring_succ ys y hr.2 n h1

theorem ring_pred {h : Heap} : ∀ (l : List Nat) (x : Nat),
    Ring h x l → ∀ n ∈ l, ∃ p, linked h p n
  | [], _, _, n, hn => by simp at hn
  | y :: ys, x, hr, n, hn => by
    rcases List.mem_cons.1 hn with h1 | h1
    · rw [h1]
      exact ⟨x, hr.1⟩
    · exact ring_pred ys y hr.2 n h1

theorem linked_local {h : Heap} {p n m : Nat} (hp : linked h p n) (hm : linked h n m) :
    ∃ c, h[n]? = some c ∧ prev_of h c.next = some n ∧ next_of h c.prev = some n := by
  obtain ⟨c, hc, hcn⟩ := next_of_eq_some.1 hm.1
  obtain ⟨c2, hc2, hcp⟩ := prev_of_eq_some.1 hp.2
  rw [hc] at hc2
  cases hc2
  refine ⟨c, hc, ?_, ?_⟩
  · rw [hcn]
    exact hm.2
  · rw [hcp]
    exact hp.1

theorem IsQueue.shape {h : Heap} {as : List Nat} (hq : IsQueue h as) : RingShape h as := by
  refine ⟨hq.1, hq.nextPath, ?_⟩
  intro n hn
  obtain ⟨m, hm⟩ := ring_succ as HEAD hq.2.2 n hn
  rcases List.mem_cons.1 hn with h1 | h1
  · rw [h1] at hm ⊢
    exact linked_local hq.closing hm
  · obtain ⟨p, hp⟩ := ring_pred as HEAD hq.2.2 n h1
    exact linked_local hp hm

theorem nextPath_unique {h : Heap} : ∀ (bs bs1 : List Nat) (x : Nat),
    NextPath h x bs → NextPath h x bs1 → HEAD ∉ bs → HEAD ∉ bs1 → bs = bs1
  | [], [], _, _, _, _, _ => rfl
  | [], b :: _, x, hp, hp1, _, h1 => by
    have hx : x = HEAD := hp
    exact absurd (hp1.1 ▸ hx ▸ List.mem_cons_self _ _) h1
  | b :: _, [], x, hp, hp1, h0, _ => by
    have hx : x = HEAD := hp1
    exact absurd (hp.1 ▸ hx ▸ List.mem_cons_self _ _) h0
  | b :: t, b1 :: t1, x, hp, hp1, h0, h1 => by
    obtain ⟨hx, c, hc, hrest⟩ := hp
    obtain ⟨hx1, c1, hc1, hrest1⟩ := hp1
    have hb : b = b1 := hx.symm.trans hx1
    subst hb
    rw [hc] at hc1
    cases hc1
    rw [nextPath_unique t t1 c.next hrest hrest1
      (fun hm => h0 (List.mem_cons_of_mem _ hm)) (fun hm => h1 (List.mem_cons_of_mem _ hm))]

theorem nextPath_suffix {h : Heap} {b : Nat} {l2 : List Nat} : ∀ (l1 : List Nat) (x : Nat),
    NextPath h x (l1 ++ b :: l2) → NextPath h b (b :: l2)
  | [], _, hp => ⟨rfl, hp.2⟩
  | _ :: l1, _, hp => by
    obtain ⟨_, c, _, hrest⟩ := hp
    exact nextPath_suffix l1 c.next hrest

theorem nextPath_nodup {h : Heap} : ∀ (bs : List Nat) (x : Nat),
    NextPath h x bs → HEAD ∉ bs → bs.Nodup
  | [], _, _, _ => List.nodup_nil
  | b :: t, x, hp, h0 => by
    have hp0 := hp
    obtain ⟨hx, c, hc, hrest⟩ := hp
    have h0t : HEAD ∉ t := fun hm => h0 (List.mem_cons_of_mem _ hm)
    refine List.nodup_cons.2 ⟨?_, nextPath_nodup t c.next hrest h0t⟩
    intro hb
    obtain ⟨l1, l2, ht⟩ := List.append_of_mem hb
    rw [ht] at hrest
    have hsuf : NextPath h b (b :: l2) := nextPath_suffix l1 c.next hrest
    rw [hx] at hp0
    have h0s : HEAD ∉ b :: l2 := by
      intro hm
      apply h0
      rw [ht]
      rcases List.mem_cons.1 hm with h1 | h1
      · rw [h1]
        exact List.mem_cons_self _ _
      · exact List.mem_cons_of_mem _ (List.mem_append_right _ (List.mem_cons_of_mem _ h1))
    have heq := nextPath_unique (b :: l2) (b :: t) b hsuf hp0 h0s h0
    have hlen := congrArg List.length heq
    rw [ht] at hlen
    simp only [List.length_cons, List.length_append] at hlen
    omega

theorem ring_of_path {h : Heap} : ∀ (bs : List Nat) (x : Nat),
    (∃ c, h[x]? = some c ∧ NextPath h c.next bs) →
    (∀ n ∈ x :: bs, ∃ c, h[n]? = some c ∧
      prev_of h c.next = some n ∧ next_of h c.prev = some n) →
    Ring h x bs
  | [], x, ⟨c, hc, hp⟩, hloc => by
    have hnext : c.next = HEAD := hp
    obtain ⟨c1, hc1, hl, _⟩ := hloc x (List.mem_cons_self _ _)
    rw [hc] at hc1
    cases hc1
    rw [hnext] at hl
    exact ⟨next_of_eq_some.2 ⟨c, hc, hnext⟩, hl⟩
  | b :: bs, x, ⟨c, hc, hp⟩, hloc => by
    obtain ⟨hnext, cb, hcb, hrest⟩ := hp
    obtain ⟨c1, hc1, hl, _⟩ := hloc x (List.mem_cons_self _ _)
    rw [hc] at hc1
    cases hc1
    rw [hnext] at hl
    exact ⟨⟨next_of_eq_some.2 ⟨c, hc, hnext⟩, hl⟩,
      ring_of_path bs b ⟨cb, hcb, hrest⟩ (fun n hn => hloc n (List.mem_cons_of_mem _ hn))⟩

theorem RingShape.queue {h : Heap} {as : List Nat} (hs : RingShape h as) : IsQueue h as := by
  obtain ⟨h0, ⟨hd, hhd, hp⟩, hloc⟩ := hs
  exact ⟨h0, nextPath_nodup as hd.next hp h0, ring_of_path as HEAD ⟨hd, hhd, hp⟩ hloc⟩

/-- C17. `enqueue` keeps the shape of the process list. If following `next`
from the head visits the cells `as` and returns to the head, and every cell
`n` on the way has `n->next->prev == n` and `n->prev->next == n`, then a call
of `enqueue` (with a pid of the table, `malloc` succeeding) returns a heap
with the same shape over `as` followed by the new cell; the new cell is
`HEAD->prev`, its `prev` is the old tail (the head when the list was empty),
whose `next` is the new cell, and its `next` is the head. -/
theorem enqueue_keeps_ring (procs : List Job) (limit : Nat) (h : Heap) (as : List Nat)
    (pid : Nat) (hs : RingShape h as) (hlim : h.length < limit)
    (hpid : pid < procs.length) :
    ∃ h1, enqueue procs limit h pid = .ok h1 ∧ RingShape h1 (as ++ [h.length]) ∧
      prev_of h1 HEAD = some h.length ∧
      prev_of h1 h.length = some (last_of as) ∧
      next_of h1 (last_of as) = some h.length ∧
      next_of h1 h.length = some HEAD := by
  have hq : IsQueue h as := hs.queue
  have hjob : procs[pid]? = some procs[pid] := List.getElem?_eq_getElem hpid
  obtain ⟨h1, he, _, hq1, _, _, hprev, hnext⟩ := enqueue_queue hq hlim hjob
  have hclose := hq1.closing
  rw [last_of_append] at hclose
  have hs1 : RingShape h1 (as ++ [h.length]) := hq1.shape
  refine ⟨h1, he, hs1, hclose.2, hprev, ?_, hnext⟩
  obtain ⟨c, hc, _, hl⟩ := hs1.2.2 h.length
    (List.mem_cons_of_mem _ (List.mem_append_right _ (List.mem_singleton_self _)))
  obtain ⟨c2, hc2, hcp⟩ := prev_of_eq_some.1 hprev
  rw [hc] at hc2
  cases hc2
  rw [hcp] at hl
  exact hl

/-- Enqueueing pid 1 of the built-in workload in `ready_heap`: the new cell 2
follows the cell 1. -/
theorem enqueue_keeps_ring_witness :
    RingShape ready_heap [1] ∧ ready_heap.length < 8 ∧ 1 < CONFIG_PROCS.length ∧
    ∃ h1, enqueue CONFIG_PROCS 8 ready_heap 1 = .ok h1 ∧
      RingShape h1 ([1] ++ [ready_heap.length]) ∧
      prev_of h1 HEAD = some ready_heap.length ∧
      prev_of h1 ready_heap.length = some (last_of [1]) ∧
      next_of h1 (last_of [1]) = some ready_heap.length ∧
      next_of h1 ready_heap.length = some HEAD :=
  have hs : RingShape ready_heap [1] := IsQueue.shape (by decide)
  ⟨hs, by decide, by decide,
   enqueue_keeps_ring CONFIG_PROCS 8 ready_heap [1] 1 hs (by decide) (by decide)⟩

/-! ## Cleanup at the end of a run -/

theorem load_live_of_get {lax : Bool} {h : Heap} {fr : List Nat} {p : Nat} {c : process}
    (hc : h[p]? = some c) (hp : p ∉ fr) : load_live lax ⟨h, fr⟩ p = .ok c := by
  unfold load_live
  simp only [hp, decide_False, Bool.and_false]
  exact load_of_get hc

theorem load_live_lax {h : Heap} {fr : List Nat} {p : Nat} {c : process}
    (hc : h[p]? = some c) : load_live true ⟨h, fr⟩ p = .ok c := by
  unfold load_live
  simp only [Bool.not_true, Bool.false_and]
  exact load_of_get hc

theorem load_live_freed {h : Heap} {fr : List Nat} {p : Nat} (hp : p ∈ fr) :
    load_live false ⟨h, fr⟩ p = .error .fault := by
  unfold load_live
  simp [hp]

theorem free_ok {h : Heap} {fr : List Nat} {p : Nat} (h0 : p ≠ HEAD) (hp : p ∉ fr)
    (hlt : p < h.length) : free ⟨h, fr⟩ p = .ok ⟨h, p :: fr⟩ := by
  unfold free
  rw [if_neg]
  rintro (h1 | h1 | h1)
  · exact h0 h1
  · exact hp h1
  · exact absurd hlt (Nat.not_lt.2 h1)

theorem ring_head {h : Heap} {x : Nat} : ∀ (l : List Nat), Ring h x l →
    linked h x (l.headD HEAD)
  | [], hr => hr
  | _ :: _, hr => hr.1

/-- The cleanup loop along the ring: started at the cell after `p`, it
releases `p` and the cells `bs` behind it, one per round, and arrives at
`HEAD->next`. -/
theorem cleanup_loop_ring {lax : Bool} {h : Heap} : ∀ (bs : List Nat) (p k : Nat)
    (fr : List Nat), Ring h p bs → (p :: bs).Nodup → HEAD ∉ p :: bs →
    (∀ x ∈ p :: bs, x ∉ fr) → HEAD ∉ fr →
    ∃ hd, h[HEAD]? = some hd ∧
      cleanup_loop lax (k + bs.length + 1) ⟨h, fr⟩ (bs.headD HEAD) =
        cleanup_loop lax k ⟨h, (p :: bs).reverse ++ fr⟩ hd.next
  | [], p, k, fr, hr, _, h0, hlive, hfr => by
    have hl : linked h p HEAD := hr
    obtain ⟨hd, hhd, hprev⟩ := prev_of_eq_some.1 hl.2
    have hp0 : p ≠ HEAD := fun e => h0 (e ▸ List.mem_cons_self _ _)
    have hpfr : p ∉ fr := hlive p (List.mem_cons_self _ _)
    have hne : hd.prev ≠ HEAD := by rw [hprev]; exact hp0
    have hfr1 : HEAD ∉ p :: fr := by
      intro hm
      rcases List.mem_cons.1 hm with h1 | h1
      · exact hp0 h1.symm
      · exact hfr h1
    refine ⟨hd, hhd, ?_⟩
    show cleanup_loop lax (k + 1) ⟨h, fr⟩ HEAD = _
    rw [cleanup_loop, load_live_of_get hhd hfr, bind_ok_eq, if_pos hne, hprev,
      free_ok hp0 hpfr (linked_lt hl).1, bind_ok_eq, load_live_of_get hhd hfr1, bind_ok_eq]
    rfl
  | b :: bs, p, k, fr, hr, hnd, h0, hlive, hfr => by
    obtain ⟨hl, hrest⟩ := hr
    obtain ⟨cb, hcb, hprev⟩ := prev_of_eq_some.1 hl.2
    have hnext : cb.next = bs.headD HEAD := by
      obtain ⟨c2, hc2, hn⟩ := next_of_eq_some.1 (ring_head bs hrest).1
      rw [hcb] at hc2
      cases hc2
      exact hn
    have hp0 : p ≠ HEAD := fun e => h0 (e ▸ List.mem_cons_self _ _)
    have hpfr : p ∉ fr := hlive p (List.mem_cons_self _ _)
    have hbfr : b ∉ fr := hlive b (List.mem_cons_of_mem _ (List.mem_cons_self _ _))
    have hpb : b ≠ p := fun e => (List.nodup_cons.1 hnd).1 (e ▸ List.mem_cons_self _ _)
    have hne : cb.prev ≠ HEAD := by rw [hprev]; exact hp0
    have hbfr1 : b ∉ p :: fr := by
      intro hm
      rcases List.mem_cons.1 hm with h1 | h1
      · exact hpb h1
      · exact hbfr h1
    have hfr1 : HEAD ∉ p :: fr := by
      intro hm
      rcases List.mem_cons.1 hm with h1 | h1
      · exact hp0 h1.symm
      · exact hfr h1
    obtain ⟨hd, hhd, ih⟩ := @cleanup_loop_ring lax h bs b k (p :: fr) hrest
      (List.nodup_cons.1 hnd).2 (fun hm => h0 (List.mem_cons_of_mem _ hm))
      (fun x hx hm => by
        rcases List.mem_cons.1 hm with h1 | h1
        · exact (List.nodup_cons.1 hnd).1 (h1 ▸ hx)
        · exact hlive x (List.mem_cons_of_mem _ hx) h1)
      hfr1
    refine ⟨hd, hhd, ?_⟩
    show cleanup_loop lax (k + (bs.length + 1) + 1) ⟨h, fr⟩ b = _
    rw [cleanup_loop, load_live_of_get hcb hbfr, bind_ok_eq, if_pos hne, hprev,
      free_ok hp0 hpfr (linked_lt hl).1, bind_ok_eq, load_live_of_get hcb hbfr1, bind_ok_eq,
      hnext]
    have hfuel : k + (bs.length + 1) = k + bs.length + 1 := rfl
    rw [hfuel, ih]
    congr 2
    simp

/-- On every well-formed queue that is not empty and has no released cell,
the cleanup ends by reading the first cell of the queue after `free` has
released it. -/
theorem cleanup_faults {h : Heap} {as fr : List Nat} (hq : IsQueue h as) (hne : as ≠ [])
    (hlive : ∀ x ∈ HEAD :: as, x ∉ fr) : cleanup false ⟨h, fr⟩ = .error .fault := by
  cases as with
  | nil => exact absurd rfl hne
  | cons a rest =>
    obtain ⟨hl, hrest⟩ := hq.2.2
    obtain ⟨hd, hhd, hnext⟩ := next_of_eq_some.1 hl.1
    obtain ⟨ca, hca, _⟩ := prev_of_eq_some.1 hl.2
    have hl2 := ring_head rest hrest
    obtain ⟨ca2, hca2, hnext2⟩ := next_of_eq_some.1 hl2.1
    rw [hca] at hca2
    cases hca2
    obtain ⟨cx, hcx, _⟩ := prev_of_eq_some.1 hl2.2
    have hfr0 : HEAD ∉ fr := hlive HEAD (List.mem_cons_self _ _)
    have hafr : a ∉ fr := hlive a (List.mem_cons_of_mem _ (List.mem_cons_self _ _))
    have hxfr : rest.headD HEAD ∉ fr := by
      cases rest with
      | nil => exact hfr0
      | cons b _ =>
        exact hlive b (List.mem_cons_of_mem _ (List.mem_cons_of_mem _ (List.mem_cons_self _ _)))
    obtain ⟨hd2, hhd2, hloop⟩ := @cleanup_loop_ring false h rest a (h.length - rest.length - 1 + 1)
      fr hrest hq.2.1 hq.1 (fun x hx => hlive x (List.mem_cons_of_mem _ hx)) hfr0
    rw [hhd] at hhd2
    cases hhd2
    have hlen := hq.length_lt
    rw [List.length_cons] at hlen
    have hfuel : h.length + 1 = h.length - rest.length - 1 + 1 + rest.length + 1 := by omega
    have hin : a ∈ (a :: rest).reverse ++ fr :=
      List.mem_append_left _ (List.mem_reverse.2 (List.mem_cons_self _ _))
    unfold cleanup
    rw [load_live_of_get hhd hfr0, bind_ok_eq, hnext, load_live_of_get hca hafr, bind_ok_eq,
      hnext2, load_live_of_get hcx hxfr, bind_ok_eq]
    show (cleanup_loop false (h.length + 1) ⟨h, fr⟩ (rest.headD HEAD) >>= _) = _
    rw [hfuel, hloop, hnext, cleanup_loop, load_live_freed hin, bind_error_eq, bind_error_eq]

/-- On a memory where released cells still read as before, the cleanup of a
well-formed queue with no released cell returns: it has released the cells
of the queue, each once, and linked the head to itself. -/
theorem cleanup_lax {h : Heap} {as fr : List Nat} (hq : IsQueue h as)
    (hlive : ∀ x ∈ HEAD :: as, x ∉ fr) :
    ∃ hd, h[HEAD]? = some hd ∧
      cleanup true ⟨h, fr⟩ =
        .ok ⟨h.set HEAD { hd with next := HEAD, prev := HEAD }, as.reverse ++ fr⟩ := by
  have hfr0 : HEAD ∉ fr := hlive HEAD (List.mem_cons_self _ _)
  have h0lt := hq.head_lt
  cases as with
  | nil =>
    have hl : linked h HEAD HEAD := hq.2.2
    obtain ⟨hd, hhd, hnext⟩ := next_of_eq_some.1 hl.1
    obtain ⟨hd2, hhd2, hprev⟩ := prev_of_eq_some.1 hl.2
    rw [hhd] at hhd2
    cases hhd2
    refine ⟨hd, hhd, ?_⟩
    unfold cleanup
    rw [load_live_lax hhd, bind_ok_eq, hnext, load_live_lax hhd, bind_ok_eq, hnext,
      load_live_lax hhd, bind_ok_eq]
    show (cleanup_loop true (h.length + 1) ⟨h, fr⟩ HEAD >>= _) = _
    rw [cleanup_loop, load_live_lax hhd, bind_ok_eq, if_neg (not_not.2 hprev), bind_ok_eq,
      load_live_lax hhd, bind_ok_eq]
    show (store h HEAD _ >>= _) = _
    rw [store_of_lt _ h0lt, bind_ok_eq]
    rfl
  | cons a rest =>
    obtain ⟨hl, hrest⟩ := hq.2.2
    obtain ⟨hd, hhd, hnext⟩ := next_of_eq_some.1 hl.1
    obtain ⟨ca, hca, hprev⟩ := prev_of_eq_some.1 hl.2
    have hl2 := ring_head rest hrest
    obtain ⟨ca2, hca2, hnext2⟩ := next_of_eq_some.1 hl2.1
    rw [hca] at hca2
    cases hca2
    obtain ⟨cx, hcx, _⟩ := prev_of_eq_some.1 hl2.2
    obtain ⟨hd2, hhd2, hloop⟩ := @cleanup_loop_ring true h rest a (h.length - rest.length - 1 + 1)
      fr hrest hq.2.1 hq.1 (fun x hx => hlive x (List.mem_cons_of_mem _ hx)) hfr0
    rw [hhd] at hhd2
    cases hhd2
    have hlen := hq.length_lt
    rw [List.length_cons] at hlen
    have hfuel : h.length + 1 = h.length - rest.length - 1 + 1 + rest.length + 1 := by omega
    refine ⟨hd, hhd, ?_⟩
    unfold cleanup
    rw [load_live_lax hhd, bind_ok_eq, hnext, load_live_lax hca, bind_ok_eq,
      hnext2, load_live_lax hcx, bind_ok_eq]
    show (cleanup_loop true (h.length + 1) ⟨h, fr⟩ (rest.headD HEAD) >>= _) = _
    rw [hfuel, hloop, hnext, cleanup_loop, load_live_lax hca, bind_ok_eq,
      if_neg (not_not.2 hprev), bind_ok_eq, load_live_lax hhd, bind_ok_eq]
    show (store h HEAD _ >>= _) = _
    rw [store_of_lt _ h0lt, bind_ok_eq]
    rfl

/-- The cleanup of a queue that holds only the head returns and leaves the
head linked to itself, whatever the memory does with released cells. -/
theorem cleanup_empty {lax : Bool} {h : Heap} {fr : List Nat} (hq : IsQueue h [])
    (hfr0 : HEAD ∉ fr) :
    ∃ hd, h[HEAD]? = some hd ∧
      cleanup lax ⟨h, fr⟩ = .ok ⟨h.set HEAD { hd with next := HEAD, prev := HEAD }, fr⟩ := by
  have h0lt := hq.head_lt
  have hl : linked h HEAD HEAD := hq.2.2
  obtain ⟨hd, hhd, hnext⟩ := next_of_eq_some.1 hl.1
  obtain ⟨hd2, hhd2, hprev⟩ := prev_of_eq_some.1 hl.2
  rw [hhd] at hhd2
  cases hhd2
  refine ⟨hd, hhd, ?_⟩
  unfold cleanup
  rw [load_live_of_get hhd hfr0, bind_ok_eq, hnext, load_live_of_get hhd hfr0, bind_ok_eq,
    hnext, load_live_of_get hhd hfr0, bind_ok_eq]
  show (cleanup_loop lax (h.length + 1) ⟨h, fr⟩ HEAD >>= _) = _
  rw [cleanup_loop, load_live_of_get hhd hfr0, bind_ok_eq, if_neg (not_not.2 hprev),
    bind_ok_eq, load_live_of_get hhd hfr0, bind_ok_eq]
  show (store h HEAD _ >>= _) = _
  rw [store_of_lt _ h0lt, bind_ok_eq]
  rfl

/-- C13 at a queue of one record. On `waited_heap`, the queue at the end of a
run of a linked policy on the built-in workload, the cleanup releases the
cell 1 and then reads that cell: the read is undefined, and the cleanup does
not get to `HEAD->next = HEAD->prev = HEAD`. Only on a memory where the
released cell still reads as before does it end with the cell released once
and the head linked to itself. -/
theorem cleanup_reads_released_cell :
    IsQueue waited_heap [1] ∧
    free ⟨waited_heap, []⟩ 1 = .ok ⟨waited_heap, [1]⟩ ∧
    load_live false ⟨waited_heap, [1]⟩ 1 = .error .fault ∧
    cleanup false ⟨waited_heap, []⟩ = .error .fault ∧
    cleanup true ⟨waited_heap, []⟩ = .ok ⟨cleared_heap, [1]⟩ ∧
    IsQueue cleared_heap [] :=
  ⟨by decide, rfl, rfl, rfl, rfl, by decide⟩

end Scheduler
